import Mathlib

/-!
Verification development for the Primate VLIW packetizer and packet
post-processor (PrimateVLIWPacketizer.cpp, PrimatePacketPostProc.cpp).

The C++ passes are shallowly embedded: machine instructions become records
of opcode, operand lists, a branch flag and a slot index; the DFA resource
tracker becomes a record holding its reservation sequence together with the
(opaque, table-driven) decision functions it consults; iterator loops become
structural recursions over lists.  Unsigned 32-bit slot arithmetic is made
explicit with a modulus.  Pointer identity of MachineInstr values is
modelled with a numeric id field.  llvm_unreachable and assert failures are
modelled as Except.error values.
-/

namespace Primate

/-- Dependency edge kinds of llvm SDep (Data = RAW, Anti = WAR, Output = WAW,
Order = ordering). -/
inductive DepKind where
  | Data
  | Anti
  | Output
  | Order
deriving DecidableEq, Repr

/-- The opcodes that the packetizer and post-processor inspect by name,
plus GENERIC for any other ordinary opcode. -/
inductive Opcode where
  | EXTRACT
  | PseudoInsert
  | INSERT
  | ADDI
  | INPUT_READ
  | INPUT_SEEK
  | INPUT_EXTRACT
  | OUTPUTHEADER
  | OUTPUTMETA
  | MATCH
  | BUNDLE
  | IMPLICIT_DEF
  | PseudoRET
  | GENERIC
deriving DecidableEq, Repr

/-- A machine operand: a register reference (with kill flag) or an
immediate.  The reg field of an immediate operand is junk (MachineOperand
getReg is only meaningful on register operands); immediates carry immVal. -/
structure Operand where
  isRegOp : Bool
  reg : Nat
  isKillFlag : Bool
  immVal : Nat
deriving DecidableEq, Repr

/-- Register operand constructor. -/
def mkRegOp (r : Nat) (k : Bool) : Operand := ⟨true, r, k, 0⟩

/-- Immediate operand constructor (junk reg field, as in the union). -/
def mkImmOp (v : Nat) : Operand := ⟨false, 999999, false, v⟩

/-- 2^32, the modulus of unsigned slot arithmetic. -/
def u32Mod : Nat := 4294967296

/-- Unsigned 32-bit addition used for slot index arithmetic. -/
def u32add (a b : Nat) : Nat := (a + b) % u32Mod

/-- Unsigned 32-bit subtraction of one (setSlotIdx(slotIdx - 1)). -/
def u32sub1 (a : Nat) : Nat := (a + 4294967295) % u32Mod

/-- The sentinel (unsigned)-1 marking an unassigned slot index. -/
def noSlot : Nat := 4294967295

/-- The architectural zero register Primate::X0 (a fixed register number;
the concrete enum value is irrelevant, only its identity is used, plus the
arithmetic Primate::X0 + slotIdx for lane alias registers). -/
def X0 : Nat := 10

/-- A machine instruction: id models pointer identity, defs and uses are the
explicit def respectively use operand lists (defs come first in the full
operand list, as in MachineInstr), branch is isBranch(), slotIdx is the
Primate slot annotation (noSlot when unassigned). -/
structure Instr where
  id : Nat
  opcode : Opcode
  branch : Bool
  defs : List Operand
  uses : List Operand
  slotIdx : Nat
deriving DecidableEq, Repr

/-- MachineInstr::getOperand over the combined operand list. -/
def Instr.getOperand (a : Instr) (i : Nat) : Option Operand :=
  (a.defs ++ a.uses).get? i

/-- Does the instruction have a register use operand of register r
(checking isReg first, as the guarded searches in the source do). -/
def usesReg (a : Instr) (r : Nat) : Bool :=
  a.uses.any (fun b => b.isRegOp && b.reg == r)

/-- Does the instruction have a register def operand of register r
(checking isReg first). -/
def definesReg (a : Instr) (r : Nat) : Bool :=
  a.defs.any (fun b => b.isRegOp && b.reg == r)

/-- Def-operand search that omits the isReg guard, mirroring the searches in
the post-processor that call getReg() without checking isReg(). -/
def definesRegRaw (a : Instr) (r : Nat) : Bool :=
  a.defs.any (fun b => b.reg == r)

/-! ## The dependency graph view (llvm SUnit / SDep)

An SDep records the id and opcode of the instruction at the other end of
the edge together with the edge kind; an SUnit wraps an instruction with
its predecessor and successor edge lists. -/

structure SDep where
  target : Nat
  targetOpcode : Opcode
  kind : DepKind
deriving DecidableEq, Repr

structure SUnit where
  id : Nat
  instr : Instr
  preds : List SDep
  succs : List SDep
deriving DecidableEq, Repr

/-- SUnit::isSucc: does SUI appear among SUJ successors (any edge kind). -/
def SUnit.isSuccOf (suj : SUnit) (suiId : Nat) : Bool :=
  suj.succs.any (fun d => d.target == suiId)

/-- The successor-edge scan of isLegalToPacketizeTogether (lines 722-766):
walk SUJ.Succs, skip edges not targeting SUI, return false on the first
Data, Output or Order edge; Anti (the default case) is skipped. -/
def checkSuccEdges (succs : List SDep) (suiId : Nat) : Bool :=
  match succs with
  | [] => true
  | d :: rest =>
    if d.target == suiId then
      match d.kind with
      | .Data => false
      | .Output => false
      | .Order => false
      | .Anti => checkSuccEdges rest suiId
    else checkSuccEdges rest suiId

/-- PrimatePacketizerList::isLegalToPacketizeTogether (lines 673-775).
SUI is the candidate outside the packet, SUJ an instruction already in it.
Branches: reject only against the BFU input opcodes, otherwise legal.
Non-branches: legal if SUI is not a successor of SUJ, otherwise scan the
successor edges.  (The extract scan over SUI.Preds in the source computes
useExtracts and deps but never uses them; it is kept as dead code.) -/
def isLegalToPacketizeTogether (sui suj : SUnit) : Bool :=
  if sui.instr.branch then
    match suj.instr.opcode with
    | .INPUT_READ => false
    | .INPUT_SEEK => false
    | .INPUT_EXTRACT => false
    | _ => true
  else
    let _useExtracts := sui.preds.any (fun d => d.targetOpcode == Opcode.EXTRACT)
    if !(suj.isSuccOf sui.id) then true
    else checkSuccEdges suj.succs sui.id

theorem checkSuccEdges_false_iff (l : List SDep) (i : Nat) :
    checkSuccEdges l i = false ↔
      ∃ d ∈ l, d.target = i ∧
        (d.kind = DepKind.Data ∨ d.kind = DepKind.Output ∨ d.kind = DepKind.Order) := by
  induction l with
  | nil => simp [checkSuccEdges]
  | cons d rest ih =>
    by_cases h : d.target = i
    · cases hk : d.kind <;> simp [checkSuccEdges, h, hk, ih]
    · have hbe : (d.target == i) = false := by
        exact beq_eq_false_iff_ne.mpr h
      simp only [checkSuccEdges, hbe, Bool.false_eq_true, if_false, ih]
      constructor
      · rintro ⟨d2, hd2, hrest⟩
        exact ⟨d2, List.mem_cons_of_mem _ hd2, hrest⟩
      · rintro ⟨d2, hd2, ht, hk⟩
        rcases List.mem_cons.mp hd2 with rfl | hd2
        · exact absurd ht h
        · exact ⟨d2, hd2, ht, hk⟩

/-- C1: for a candidate instruction I that is not a control-transfer
instruction and an instruction J already in the packet,
isLegalToPacketizeTogether returns false if and only if the dependency
graph records an edge J to I of kind Data, Output or Order; an Anti edge
alone never causes rejection. -/
theorem c1_nonbranch_legality (sui suj : SUnit) (hnb : sui.instr.branch = false) :
    isLegalToPacketizeTogether sui suj = false ↔
      ∃ d ∈ suj.succs, d.target = sui.id ∧
        (d.kind = DepKind.Data ∨ d.kind = DepKind.Output ∨ d.kind = DepKind.Order) := by
  by_cases hs : suj.isSuccOf sui.id
  · simp [isLegalToPacketizeTogether, hnb, hs, checkSuccEdges_false_iff]
  · have hnot : ∀ d ∈ suj.succs, ¬ d.target = sui.id := by
      intro d hd heq
      exact hs (List.any_eq_true.mpr ⟨d, hd, beq_iff_eq.mpr heq⟩)
    have hres : isLegalToPacketizeTogether sui suj = true := by
      simp [isLegalToPacketizeTogether, hnb, hs]
    simp only [hres, Bool.true_eq_false, false_iff]
    rintro ⟨d, hd, ht, _⟩
    exact hnot d hd ht

/-- Concrete non-branch SUnit for the C1 witness: candidate with id 1. -/
def suiW1 : SUnit := ⟨1, ⟨1, .GENERIC, false, [mkRegOp 5 false], [], noSlot⟩, [], []⟩

/-- Concrete packet member for the C1 witness: has an Anti edge to id 1 and a
Data edge to an unrelated id 3, so packetizing with id 1 stays legal. -/
def sujW1 : SUnit :=
  ⟨2, ⟨2, .GENERIC, false, [], [], noSlot⟩, [],
    [⟨1, .GENERIC, .Anti⟩, ⟨3, .GENERIC, .Data⟩]⟩

theorem c1_nonbranch_legality_witness :
    isLegalToPacketizeTogether suiW1 sujW1 = false ↔
      ∃ d ∈ sujW1.succs, d.target = suiW1.id ∧
        (d.kind = DepKind.Data ∨ d.kind = DepKind.Output ∨ d.kind = DepKind.Order) :=
  c1_nonbranch_legality suiW1 sujW1 rfl

/-- Concrete branch candidate for C2: a control-transfer instruction. -/
def suiB2 : SUnit := ⟨4, ⟨4, .GENERIC, true, [], [mkRegOp 5 false], noSlot⟩, [], []⟩

/-- Concrete packet member for C2: an ADDI (not a blocking BFU opcode) with a
Data hazard edge to the branch candidate with id 4. -/
def sujD2 : SUnit :=
  ⟨5, ⟨5, .ADDI, false, [mkRegOp 5 false], [], noSlot⟩, [], [⟨4, .GENERIC, .Data⟩]⟩

/-- C2 counterexample: the claim says that for a control-transfer candidate
and a non-blocking packet member the predicate returns true exactly when no
Data, Output or Order edge from J to I exists.  Here such a Data edge exists
and J is not a blocking opcode, yet the predicate returns true: the hazard
clause of the claim is false on the code. -/
theorem c2_counterexample :
    isLegalToPacketizeTogether suiB2 sujD2 = true ∧
    sujD2.instr.opcode ≠ Opcode.INPUT_READ ∧
    sujD2.instr.opcode ≠ Opcode.INPUT_SEEK ∧
    sujD2.instr.opcode ≠ Opcode.INPUT_EXTRACT ∧
    (⟨4, .GENERIC, .Data⟩ : SDep) ∈ sujD2.succs ∧
    (⟨4, .GENERIC, .Data⟩ : SDep).target = suiB2.id ∧
    (⟨4, .GENERIC, .Data⟩ : SDep).kind = DepKind.Data := by
  decide

/-- C2 amended: for a control-transfer candidate I, the legality predicate
returns false exactly when the packet member J has one of the blocking
opcodes INPUT_READ, INPUT_SEEK or INPUT_EXTRACT; hazard edges from J to I
are not consulted at all (the predicate returns true regardless of them). -/
theorem c2_branch_legality (sui suj : SUnit) (hb : sui.instr.branch = true) :
    isLegalToPacketizeTogether sui suj = false ↔
      (suj.instr.opcode = Opcode.INPUT_READ ∨ suj.instr.opcode = Opcode.INPUT_SEEK ∨
       suj.instr.opcode = Opcode.INPUT_EXTRACT) := by
  cases hop : suj.instr.opcode <;> simp [isLegalToPacketizeTogether, hb, hop]

/-- Blocking packet member for the C2 amended witness. -/
def sujW2 : SUnit := ⟨6, ⟨6, .INPUT_READ, false, [], [], noSlot⟩, [], []⟩

theorem c2_branch_legality_witness :
    isLegalToPacketizeTogether suiB2 sujW2 = false ↔
      (sujW2.instr.opcode = Opcode.INPUT_READ ∨ sujW2.instr.opcode = Opcode.INPUT_SEEK ∨
       sujW2.instr.opcode = Opcode.INPUT_EXTRACT) :=
  c2_branch_legality suiB2 sujW2 rfl

/-! ## The DFA resource tracker

The DFAPacketizer is table-driven and opaque to the packetizer; it is
embedded as the sequence of reservations made so far together with the two
decision functions the packetizer consults: whether one more instruction
can be reserved, and the resource bitmask granted to the instruction at a
given position of the reservation sequence.  Copy construction of the C++
object is value copy of this record; clearResources resets the sequence. -/

structure TrackerCfg where
  canAdd : List Opcode → Opcode → Bool
  usedRes : List Opcode → Nat → Nat

structure Tracker where
  cfg : TrackerCfg
  reserved : List Opcode

/-- DFAPacketizer::canReserveResources (pure query). -/
def Tracker.canReserveResources (t : Tracker) (a : Instr) : Bool :=
  t.cfg.canAdd t.reserved a.opcode

/-- DFAPacketizer::reserveResources (commits one reservation). -/
def Tracker.reserveResources (t : Tracker) (a : Instr) : Tracker :=
  { t with reserved := t.reserved ++ [a.opcode] }

/-- DFAPacketizer::clearResources. -/
def Tracker.clearResources (t : Tracker) : Tracker :=
  { t with reserved := [] }

/-- DFAPacketizer::getUsedResources. -/
def Tracker.getUsedResources (t : Tracker) (idx : Nat) : Nat :=
  t.cfg.usedRes t.reserved idx

/-- llvm countTrailingZeros on an unsigned 32-bit value (32 on zero). -/
def ctz (n : Nat) : Nat :=
  ((List.range 32).find? (fun i => n / 2 ^ i % 2 == 1)).getD 32

/-- The identity bypass instruction
BuildMI(..., ADDI, reg).addReg(reg).addImm(0): reads and rewrites the same
register, slot initially unassigned. -/
def mkBypassADDI (nid : Nat) (r : Nat) : Instr :=
  ⟨nid, .ADDI, false, [mkRegOp r false], [mkRegOp r false, mkImmOp 0], noSlot⟩

/-! ## PrimatePacketizerList::insertBypassOps (lines 162-225)

The function copies the resource tracker into TryResourceTracker and walks
the branch use operands; every tracker operation in the body targets the
copy, never the committed tracker, which is therefore returned unchanged in
rtOut.  On the first probe failure it returns push = true with the bypasses
generated so far (including the one that failed to fit). -/

structure IBOResult where
  push : Bool
  gens : List Instr
  rtOut : Tracker
  nextId : Nat

def insertBypassOpsGo (realRT : Tracker) (pkt : List Instr) (brId : Nat) :
    List Operand → Tracker → List Instr → Nat → IBOResult
  | [], _tryRT, acc, n => ⟨false, acc, realRT, n⟩
  | u :: us, tryRT, acc, n =>
    if !u.isRegOp then insertBypassOpsGo realRT pkt brId us tryRT acc n
    else
      let operandGenerated := pkt.any (fun m =>
        !(m.id == brId) && !(m.opcode == Opcode.EXTRACT) && definesReg m u.reg)
      if operandGenerated then insertBypassOpsGo realRT pkt brId us tryRT acc n
      else
        let byp := mkBypassADDI n u.reg
        if !(tryRT.canReserveResources byp) then ⟨true, acc ++ [byp], realRT, n + 1⟩
        else
          insertBypassOpsGo realRT pkt brId us (tryRT.reserveResources byp)
            (acc ++ [byp]) (n + 1)

def insertBypassOps (rt : Tracker) (pkt : List Instr) (br : Instr) (n : Nat) : IBOResult :=
  insertBypassOpsGo rt pkt br.id br.uses rt [] n

/-! ## PrimatePacketizerList::endPacket (lines 363-638) -/

/-- Scheduling information attached to one instruction: the Data/Anti/...
predecessor and successor edges, each carrying the instruction at the other
end (MIToSUnit lookup returns none for synthesized instructions). -/
structure SUInfo where
  preds : List (DepKind × Instr)
  succs : List (DepKind × Instr)

/-- The predecessor scan of the slot-assignment loop (lines 430-455): pull
unpacketized EXTRACT producers into the packet, reserve their resources and
slot them at consumer slot + offset (no slot when the consumer is a
branch); offset counts only relocated extracts. -/
def predsLoop (pktIds : List Nat) (miBranch : Bool) (s : Nat) :
    List (DepKind × Instr) → List Instr → Tracker → Nat → List Instr × Tracker
  | [], gens, tr, _off => (gens, tr)
  | (k, dep) :: rest, gens, tr, off =>
    if k ≠ DepKind.Data then predsLoop pktIds miBranch s rest gens tr off
    else if dep.opcode == Opcode.EXTRACT then
      if pktIds.contains dep.id then predsLoop pktIds miBranch s rest gens tr off
      else
        let dep2 := if !miBranch then { dep with slotIdx := u32add s off } else dep
        predsLoop pktIds miBranch s rest (gens ++ [dep2]) (tr.reserveResources dep) (off + 1)
    else predsLoop pktIds miBranch s rest gens tr off

/-- The successor scan of the slot-assignment loop (lines 456-481): pull
unpacketized PseudoInsert consumers in, reserve resources, slot at producer
slot - 1; a branch producing a value for an insert is llvm_unreachable. -/
def succsLoop (pktIds : List Nat) (miBranch : Bool) (s : Nat) :
    List (DepKind × Instr) → List Instr → Tracker → Except String (List Instr × Tracker)
  | [], gens, tr => .ok (gens, tr)
  | (k, dep) :: rest, gens, tr =>
    if k ≠ DepKind.Data then succsLoop pktIds miBranch s rest gens tr
    else if dep.opcode == Opcode.PseudoInsert then
      if pktIds.contains dep.id then succsLoop pktIds miBranch s rest gens tr
      else if miBranch then .error "branch produces a value for and insert?"
      else
        succsLoop pktIds miBranch s rest (gens ++ [{ dep with slotIdx := u32sub1 s }])
          (tr.reserveResources dep)
    else succsLoop pktIds miBranch s rest gens tr

/-- The main slot-assignment loop of endPacket (lines 400-515): per packet
member, read back the granted resource bitmask and derive the slot index;
ordinary members get the slot and pull their extract/insert partners in;
an EXTRACT without an in-block Data consumer is a live out and gets an
identity bypass at the next granted slot. -/
def middleGo (dg : Nat → Option SUInfo) (pktIds : List Nat) (pktLen : Nat) :
    List Instr → Nat → List Instr → List Instr → Tracker → Nat →
      Except String (List Instr × List Instr × Tracker × Nat)
  | [], _idx, done, gens, tr, nid => .ok (done, gens, tr, nid)
  | mi :: rest, idx, done, gens, tr, nid =>
    let s := ctz (tr.getUsedResources idx)
    if mi.opcode ≠ Opcode.EXTRACT ∧ mi.opcode ≠ Opcode.PseudoInsert then
      let mi2 := { mi with slotIdx := s }
      match dg mi.id with
      | none => middleGo dg pktIds pktLen rest (idx + 1) (done ++ [mi2]) gens tr nid
      | some su =>
        match predsLoop pktIds mi.branch s su.preds gens tr 1 with
        | (gens1, tr1) =>
          match succsLoop pktIds mi.branch s su.succs gens1 tr1 with
          | .error e => .error e
          | .ok (gens2, tr2) =>
            middleGo dg pktIds pktLen rest (idx + 1) (done ++ [mi2]) gens2 tr2 nid
    else if mi.opcode == Opcode.EXTRACT then
      match dg mi.id with
      | none => middleGo dg pktIds pktLen rest (idx + 1) (done ++ [mi]) gens tr nid
      | some su =>
        let consumerInBlock := su.succs.any (fun p => p.1 == DepKind.Data)
        if consumerInBlock then
          middleGo dg pktIds pktLen rest (idx + 1) (done ++ [mi]) gens tr nid
        else
          let r := (mi.defs.headD (mkRegOp 0 false)).reg
          let byp := mkBypassADDI nid r
          if !(tr.canReserveResources byp) then
            .error "unsure how to packetize this extract"
          else
            let tr2 := tr.reserveResources byp
            let bslot := ctz (tr2.getUsedResources (pktLen + gens.length))
            middleGo dg pktIds pktLen rest (idx + 1) (done ++ [mi])
              (gens ++ [{ byp with slotIdx := bslot }]) tr2 (nid + 1)
    else
      middleGo dg pktIds pktLen rest (idx + 1) (done ++ [mi]) gens tr nid

/-- One step of the dangling-PseudoInsert fallback (lines 518-544): a
PseudoInsert still without a slot, when it is the only PseudoInsert in the
packet, is slotted from the tracker: with reference slot s it receives slot
s when no member occupies slot s + 1, and slot s + 4 otherwise. -/
def insertFallbackStep (tr : Tracker) (pkt : List Instr) (i : Nat) : List Instr :=
  match pkt.get? i with
  | none => pkt
  | some mi =>
    if mi.opcode == Opcode.PseudoInsert && mi.slotIdx == noSlot then
      let hasOther := pkt.any (fun a => a.opcode == Opcode.PseudoInsert && !(a.id == mi.id))
      if !hasOther then
        let s := ctz (tr.getUsedResources i)
        let opSlot := s + 1
        let occupied := pkt.any (fun a => a.slotIdx == opSlot)
        pkt.set i { mi with slotIdx := if occupied then s + 4 else s }
      else pkt
    else pkt

def insertFallbackLoop (tr : Tracker) (pkt : List Instr) : List Instr :=
  (List.range pkt.length).foldl (insertFallbackStep tr) pkt

/-- Producer search of the branch fixup (lines 560-579): some other packet
member has a register def of register r. -/
def hasProducerInPacket (pkt : List Instr) (selfId : Nat) (r : Nat) : Bool :=
  pkt.any (fun m => !(m.id == selfId) && definesReg m r)

/-- Branch operand check of the fixup loop (lines 548-590) for one branch:
every register use operand other than X0 must have a producer in the
packet; false means the llvm_unreachable is hit. -/
def branchFixupOne (pkt : List Instr) (br : Instr) : Bool :=
  br.uses.all (fun u => !u.isRegOp || u.reg == X0 || hasProducerInPacket pkt br.id u.reg)

def packetBranchFixupOk (pkt : List Instr) : Bool :=
  pkt.all (fun mi => !mi.branch || branchFixupOne pkt mi)

/-- State threaded through endPacket: the current packet member list, the
committed resource tracker, a fresh-id counter for synthesized
instructions, and the list of packets finalized so far (the result of the
finalizeBundle calls). -/
structure EPState where
  packet : List Instr
  tracker : Tracker
  nextId : Nat
  emitted : List (List Instr)

/-- The finalization body of endPacket once bypass handling is done (lines
400-616): slot assignment and partner pull-in, the PseudoInsert fallback,
the branch operand fixup, the empty-packet check (whose message depends on
whether a branch push emptied the packet), bundle finalization, and the
clearing of the packet and tracker. -/
def finalizeCore (dg : Nat → Option SUInfo) (pushFlag : Bool) (st : EPState) :
    Except String EPState :=
  match middleGo dg (st.packet.map Instr.id) st.packet.length st.packet 0 [] [] st.tracker st.nextId with
  | .error e => .error e
  | .ok (done, gens, tr, nid) =>
    let pkt2 := done ++ gens
    let pkt3 := insertFallbackLoop tr pkt2
    if !packetBranchFixupOk pkt3 then
      .error "No generating instr found. Should NEVER happen as failure to add bypasses triggers a packet push."
    else if pkt3.length < 1 then
      .error (if pushFlag then
        "attempted to packetize an empty packet due to pushing a branch. Should NEVER happen."
      else "attempted to packetize an empty packet.")
    else
      .ok ⟨[], tr.clearResources, nid, st.emitted ++ [pkt3]⟩

/-- PrimatePacketizerList::endPacket (lines 363-638).  An empty current
packet is logged, the tracker cleared and the call returns.  When the
packet-breaking instruction is a branch, bypass generation runs first: on a
probe failure the branch is popped and packed, together with the generated
bypasses, into a fresh trailing packet whose endPacket is re-run (the
recursion is bounded here by fuel, a modeling artifact); on success the
bypasses are committed to the real tracker and appended to the packet. -/
def endPacketAux (dg : Nat → Option SUInfo) : Nat → EPState → Except String EPState
  | 0, _ => .error "recursion fuel exhausted (modeling artifact)"
  | fuel + 1, st =>
    match st.packet.getLast? with
    | none => .ok ⟨st.packet, st.tracker.clearResources, st.nextId, st.emitted⟩
    | some pbi =>
      if pbi.branch then
        let res := insertBypassOps st.tracker st.packet pbi st.nextId
        if res.push then
          match finalizeCore dg true ⟨st.packet.dropLast, st.tracker, res.nextId, st.emitted⟩ with
          | .error e => .error e
          | .ok st2 =>
            endPacketAux dg fuel
              ⟨res.gens ++ [pbi],
               (res.gens.foldl (fun t b => t.reserveResources b) st2.tracker).reserveResources pbi,
               st2.nextId, st2.emitted⟩
        else
          finalizeCore dg false
            ⟨st.packet ++ res.gens,
             res.gens.foldl (fun t b => t.reserveResources b) st.tracker,
             res.nextId, st.emitted⟩
      else
        finalizeCore dg false st

/-- Is the endPacket outcome a normal return (no llvm_unreachable hit). -/
def exceptIsOk (e : Except String EPState) : Bool :=
  match e with
  | .ok _ => true
  | .error _ => false

/-! ## Claims C3 and C4: endPacket on an empty packet, PseudoInsert fallback -/

/-- A concrete automaton configuration: four slots, slot i granted bitmask
2^i. -/
def cfgBig : TrackerCfg := ⟨fun rs _ => rs.length < 4, fun _ i => 2 ^ i⟩

/-- An empty tracker over cfgBig. -/
def trBig : Tracker := ⟨cfgBig, []⟩

/-- Dependency information with no scheduling info for any instruction. -/
def dgNone : Nat → Option SUInfo := fun _ => none

/-- C3 counterexample: endPacket entered with an empty current packet
returns normally (the code logs, clears the tracker and returns), so the
claim that this aborts with a fatal error is false on the code. -/
theorem c3_counterexample :
    exceptIsOk (endPacketAux dgNone 3 ⟨[], trBig, 0, []⟩) = true := rfl

/-- C3 amended: endPacket entered with an empty packet clears the resource
tracker and returns without emitting anything (it is silently skipped); the
fatal empty-packet error fires only when the packet becomes empty inside
endPacket, i.e. when finalization is reached with no members after the
packet-closing branch was popped. -/
theorem c3_empty_packet_behavior :
    (∀ (dg : Nat → Option SUInfo) (fuel : Nat) (tr : Tracker) (n : Nat)
        (em : List (List Instr)),
      endPacketAux dg (fuel + 1) ⟨[], tr, n, em⟩ = .ok ⟨[], tr.clearResources, n, em⟩) ∧
    (∀ (dg : Nat → Option SUInfo) (tr : Tracker) (n : Nat) (em : List (List Instr)),
      finalizeCore dg true ⟨[], tr, n, em⟩ =
        .error "attempted to packetize an empty packet due to pushing a branch. Should NEVER happen.") := by
  constructor
  · intro dg fuel tr n em
    rfl
  · intro dg tr n em
    rfl

/-- Automaton for the C4 inputs: the member at position 0 is granted bitmask
4, i.e. reference slot 2. -/
def cfgC4 : TrackerCfg := ⟨fun rs _ => rs.length < 4, fun _ i => if i == 0 then 4 else 1⟩

def trC4 : Tracker := ⟨cfgC4, [Opcode.PseudoInsert]⟩

/-- A slotless PseudoInsert. -/
def insC4 : Instr :=
  ⟨0, .PseudoInsert, false, [mkRegOp 5 false], [mkRegOp 5 false, mkImmOp 0], noSlot⟩

/-- A packet holding a single slotless PseudoInsert. -/
def pktC4 : List Instr := [insC4]

/-- C4 counterexample: the reference slot is s = 2 and no packet member
occupies slot s + 1 = 3, yet the fallback assigns the pseudo-op slot 2
(the reference slot itself), not slot 3 as the claim states. -/
theorem c4_counterexample :
    (insertFallbackLoop trC4 pktC4).map Instr.slotIdx = [2] ∧
    ctz (trC4.getUsedResources 0) = 2 ∧
    pktC4.any (fun a => a.slotIdx == 2 + 1) = false ∧
    (2 : Nat) ≠ 2 + 1 := by decide

theorem insertFallbackStep_id (tr : Tracker) (q : List Instr) (j : Nat)
    (h : ∀ mj, q.get? j = some mj →
      ¬(mj.opcode = Opcode.PseudoInsert ∧ mj.slotIdx = noSlot)) :
    insertFallbackStep tr q j = q := by
  unfold insertFallbackStep
  cases hq : q.get? j with
  | none => rfl
  | some mj =>
    have hmj := h mj hq
    have hcond : (mj.opcode == Opcode.PseudoInsert && mj.slotIdx == noSlot) = false := by
      by_cases h1 : mj.opcode = Opcode.PseudoInsert
      · by_cases h2 : mj.slotIdx = noSlot
        · exact absurd ⟨h1, h2⟩ hmj
        · simp [h2]
      · simp [h1]
    simp [hcond]

theorem foldl_insertFallbackStep_id (tr : Tracker) (q : List Instr) (idxs : List Nat)
    (h : ∀ j ∈ idxs, insertFallbackStep tr q j = q) :
    idxs.foldl (insertFallbackStep tr) q = q := by
  induction idxs with
  | nil => rfl
  | cons j rest ih =>
    rw [List.foldl_cons, h j (List.mem_cons_self j rest)]
    exact ih (fun j2 hj2 => h j2 (List.mem_cons_of_mem j hj2))

/-- C4 amended: a slotless PseudoInsert that is the only PseudoInsert in the
packet is assigned the reference slot s itself when no member occupies slot
s + 1, and slot s + 4 when slot s + 1 is occupied (the claim said s + 1
instead of s in the unoccupied case). -/
theorem c4_insert_fallback (tr : Tracker) (pkt : List Instr) (i : Nat) (mi : Instr)
    (hget : pkt.get? i = some mi)
    (hop : mi.opcode = Opcode.PseudoInsert) (hslot : mi.slotIdx = noSlot)
    (hnodup : (pkt.map Instr.id).Nodup)
    (honly : ∀ m ∈ pkt, m.opcode = Opcode.PseudoInsert → m.id = mi.id) :
    insertFallbackLoop tr pkt =
      pkt.set i { mi with slotIdx :=
        (if (pkt.any (fun a => a.slotIdx == ctz (tr.getUsedResources i) + 1) = true)
         then ctz (tr.getUsedResources i) + 4
         else ctz (tr.getUsedResources i)) } := by
  have hilt : i < pkt.length := by
    rcases List.get?_eq_some.mp hget with ⟨h, _⟩; exact h
  have hinj : ∀ (j : Nat) (mj : Instr), pkt.get? j = some mj → mj.id = mi.id → j = i := by
    intro j mj hj hid
    have hjlt : j < pkt.length := by
      rcases List.get?_eq_some.mp hj with ⟨h, _⟩; exact h
    have h1 : (pkt.map Instr.id).get? j = some mj.id := by
      rw [List.get?_map, hj]; rfl
    have h2 : (pkt.map Instr.id).get? i = some mi.id := by
      rw [List.get?_map, hget]; rfl
    have heq : (pkt.map Instr.id).get? j = (pkt.map Instr.id).get? i := by
      rw [h1, h2, hid]
    exact List.get?_inj (by simpa using hjlt) hnodup heq
  have hid_ne : ∀ (j : Nat), j ≠ i → ∀ mj, pkt.get? j = some mj →
      ¬(mj.opcode = Opcode.PseudoInsert ∧ mj.slotIdx = noSlot) := by
    intro j hj mj hjget hand
    have hmem : mj ∈ pkt := List.get?_mem hjget
    exact hj (hinj j mj hjget (honly mj hmem hand.1))
  have hsplit : List.range pkt.length =
      List.range' 0 i ++ i :: List.range' (i + 1) (pkt.length - i - 1) := by
    rw [List.range_eq_range']
    have h1 := List.range'_append 0 i (pkt.length - i) 1
    simp only [Nat.zero_add, Nat.one_mul] at h1
    have h2 : (pkt.length - i) + i = pkt.length := by omega
    rw [h2] at h1
    have h3 : pkt.length - i = (pkt.length - i - 1) + 1 := by omega
    rw [← h1, h3, List.range'_succ]
    simp
  have hstep : insertFallbackStep tr pkt i =
      pkt.set i { mi with slotIdx :=
        (if (pkt.any (fun a => a.slotIdx == ctz (tr.getUsedResources i) + 1) = true)
         then ctz (tr.getUsedResources i) + 4
         else ctz (tr.getUsedResources i)) } := by
    have hother : pkt.any (fun a =>
        a.opcode == Opcode.PseudoInsert && !(a.id == mi.id)) = false := by
      rw [List.any_eq_false]
      intro a ha hpa
      simp only [Bool.and_eq_true, Bool.not_eq_true', beq_iff_eq,
        beq_eq_false_iff_ne] at hpa
      exact hpa.2 (honly a ha hpa.1)
    unfold insertFallbackStep
    rw [hget]
    simp only [hop, hslot, beq_self_eq_true, Bool.and_self, if_true, hother,
      Bool.not_false, if_true]
  rw [insertFallbackLoop, hsplit, List.foldl_append]
  have hpre : (List.range' 0 i).foldl (insertFallbackStep tr) pkt = pkt := by
    apply foldl_insertFallbackStep_id
    intro j hj
    apply insertFallbackStep_id
    intro mj hmj
    have hji := List.mem_range'_1.mp hj
    exact hid_ne j (by omega) mj hmj
  rw [hpre, List.foldl_cons, hstep]
  apply foldl_insertFallbackStep_id
  intro j hj
  apply insertFallbackStep_id
  intro mj hmj
  have hji := List.mem_range'_1.mp hj
  have hne : i ≠ j := by omega
  rw [List.get?_set_ne _ _ hne] at hmj
  exact hid_ne j (by omega) mj hmj

/-- C4 witness input data: the fallback applied at pktC4 places the
pseudo-op at the reference slot. -/
theorem c4_insert_fallback_witness :
    insertFallbackLoop trC4 pktC4 =
      pktC4.set 0 { insC4 with slotIdx :=
        (if (pktC4.any (fun a => a.slotIdx == ctz (trC4.getUsedResources 0) + 1) = true)
         then ctz (trC4.getUsedResources 0) + 4
         else ctz (trC4.getUsedResources 0)) } :=
  c4_insert_fallback trC4 pktC4 0 insC4 rfl rfl rfl (by decide) (by decide)

/-! ## Claims C5, C6, C7: branch bypass handling of endPacket -/

/-- C5: when the packet-closing instruction is a branch and the cloned
probe fails, the branch is popped from the current packet, the packet is
finalized without it, and the branch together with all generated bypasses
is packed into a fresh trailing packet whose endPacket is re-run. -/
theorem c5_branch_push_resplit (dg : Nat → Option SUInfo) (fuel : Nat) (st : EPState)
    (ps : List Instr) (br : Instr)
    (hpkt : st.packet = ps ++ [br]) (hbr : br.branch = true)
    (hpush : (insertBypassOps st.tracker st.packet br st.nextId).push = true) :
    endPacketAux dg (fuel + 1) st =
      match finalizeCore dg true
          ⟨ps, st.tracker, (insertBypassOps st.tracker st.packet br st.nextId).nextId,
           st.emitted⟩ with
      | .error e => .error e
      | .ok st2 =>
        endPacketAux dg fuel
          ⟨(insertBypassOps st.tracker st.packet br st.nextId).gens ++ [br],
           ((insertBypassOps st.tracker st.packet br st.nextId).gens.foldl
             (fun t b => t.reserveResources b) st2.tracker).reserveResources br,
           st2.nextId, st2.emitted⟩ := by
  obtain ⟨pk, tr, nid, em⟩ := st
  simp only at hpkt hpush ⊢
  subst hpkt
  simp only [endPacketAux, List.getLast?_concat, List.dropLast_concat, hbr, hpush, if_true]

theorem insertBypassOpsGo_gens_prefix (realRT : Tracker) (pkt : List Instr) (brId : Nat) :
    ∀ (us : List Operand) (tryRT : Tracker) (acc : List Instr) (n : Nat),
      ∃ tail, (insertBypassOpsGo realRT pkt brId us tryRT acc n).gens = acc ++ tail := by
  intro us
  induction us with
  | nil =>
    intro tryRT acc n
    exact ⟨[], (List.append_nil acc).symm⟩
  | cons u rest ih =>
    intro tryRT acc n
    unfold insertBypassOpsGo
    cases hu : u.isRegOp with
    | false => simpa using ih tryRT acc n
    | true =>
      simp only [hu, Bool.not_true, Bool.false_eq_true, if_false]
      by_cases hg : pkt.any (fun m =>
          !(m.id == brId) && !(m.opcode == Opcode.EXTRACT) && definesReg m u.reg) = true
      · simpa [hg] using ih tryRT acc n
      · simp only [Bool.not_eq_true] at hg
        simp only [hg, Bool.false_eq_true, if_false]
        by_cases hc : tryRT.canReserveResources (mkBypassADDI n u.reg) = true
        · simp only [hc, Bool.not_true, Bool.false_eq_true, if_false]
          rcases ih (tryRT.reserveResources (mkBypassADDI n u.reg))
            (acc ++ [mkBypassADDI n u.reg]) (n + 1) with ⟨tail, htail⟩
          exact ⟨mkBypassADDI n u.reg :: tail, by simpa using htail⟩
        · simp only [Bool.not_eq_true] at hc
          simp only [hc, Bool.not_false, if_true]
          exact ⟨[mkBypassADDI n u.reg], rfl⟩

theorem insertBypassOpsGo_covers (realRT : Tracker) (pkt : List Instr) (brId : Nat) :
    ∀ (us : List Operand) (tryRT : Tracker) (acc : List Instr) (n : Nat),
      brId < n →
      (insertBypassOpsGo realRT pkt brId us tryRT acc n).push = false →
      ∀ u ∈ us, u.isRegOp = true →
        (pkt.any (fun m => !(m.id == brId) && !(m.opcode == Opcode.EXTRACT) &&
            definesReg m u.reg) = true) ∨
        (∃ m ∈ (insertBypassOpsGo realRT pkt brId us tryRT acc n).gens,
          m.id ≠ brId ∧ definesReg m u.reg = true) := by
  intro us
  induction us with
  | nil =>
    intro _ _ _ _ _ u hu
    exact absurd hu (List.not_mem_nil u)
  | cons u0 rest ih =>
    intro tryRT acc n hlt hpush u hu hreg
    rcases List.mem_cons.mp hu with rfl | hmem
    · -- u is the head operand
      unfold insertBypassOpsGo at hpush ⊢
      simp only [hreg, Bool.not_true, Bool.false_eq_true, if_false] at hpush ⊢
      by_cases hg : pkt.any (fun m =>
          !(m.id == brId) && !(m.opcode == Opcode.EXTRACT) && definesReg m u.reg) = true
      · exact Or.inl hg
      · right
        simp only [Bool.not_eq_true] at hg
        simp only [hg, Bool.false_eq_true, if_false] at hpush ⊢
        by_cases hc : tryRT.canReserveResources (mkBypassADDI n u.reg) = true
        · simp only [hc, Bool.not_true, Bool.false_eq_true, if_false] at hpush ⊢
          rcases insertBypassOpsGo_gens_prefix realRT pkt brId rest
              (tryRT.reserveResources (mkBypassADDI n u.reg))
              (acc ++ [mkBypassADDI n u.reg]) (n + 1) with ⟨tail, htail⟩
          refine ⟨mkBypassADDI n u.reg, ?_, ?_, ?_⟩
          · rw [htail]
            simp
          · simp only [mkBypassADDI]
            omega
          · simp [definesReg, mkRegOp, mkBypassADDI]
        · simp only [Bool.not_eq_true] at hc
          simp only [hc, Bool.not_false, if_true] at hpush
          cases hpush
    · -- u is in the tail
      unfold insertBypassOpsGo at hpush ⊢
      cases hreg0 : u0.isRegOp with
      | false =>
        simp only [hreg0, Bool.not_false, if_true] at hpush ⊢
        exact ih tryRT acc n hlt hpush u hmem hreg
      | true =>
        simp only [hreg0, Bool.not_true, Bool.false_eq_true, if_false] at hpush ⊢
        by_cases hg : pkt.any (fun m =>
            !(m.id == brId) && !(m.opcode == Opcode.EXTRACT) && definesReg m u0.reg) = true
        · simp only [hg, if_true] at hpush ⊢
          exact ih tryRT acc n hlt hpush u hmem hreg
        · simp only [Bool.not_eq_true] at hg
          simp only [hg, Bool.false_eq_true, if_false] at hpush ⊢
          by_cases hc : tryRT.canReserveResources (mkBypassADDI n u0.reg) = true
          · simp only [hc, Bool.not_true, Bool.false_eq_true, if_false] at hpush ⊢
            exact ih (tryRT.reserveResources (mkBypassADDI n u0.reg))
              (acc ++ [mkBypassADDI n u0.reg]) (n + 1) (by omega) hpush u hmem hreg
          · simp only [Bool.not_eq_true] at hc
            simp only [hc, Bool.not_false, if_true] at hpush
            cases hpush

/-- C6: when insertBypassOps succeeds (all probes pass, push = false), every
register use operand of the branch has a producer other than the branch
among the packet members together with the generated bypasses; hence the
branch operand fixup of endPacket never reaches its no-producer
llvm_unreachable, whatever slot indices finalization reassigns (f) and
whatever further instructions it adds (extra). -/
theorem c6_branch_operands_produced (rt : Tracker) (pkt : List Instr) (br : Instr) (n : Nat)
    (hfresh : br.id < n)
    (hok : (insertBypassOps rt pkt br n).push = false)
    (f : Instr → Nat) (extra : List Instr) :
    branchFixupOne
      ((pkt ++ (insertBypassOps rt pkt br n).gens).map
        (fun m => { m with slotIdx := f m }) ++ extra) br = true := by
  rw [branchFixupOne, List.all_eq_true]
  intro u hu
  cases hreg : u.isRegOp with
  | false => simp [hreg]
  | true =>
    by_cases hx0 : u.reg = X0
    · simp [hx0]
    · have hcov := insertBypassOpsGo_covers rt pkt br.id br.uses rt [] n hfresh hok u hu hreg
      have hprod : hasProducerInPacket
          ((pkt ++ (insertBypassOps rt pkt br n).gens).map
            (fun m => { m with slotIdx := f m }) ++ extra) br.id u.reg = true := by
        rw [hasProducerInPacket, List.any_eq_true]
        have hmk : ∀ m : Instr, m ∈ pkt ++ (insertBypassOps rt pkt br n).gens →
            m.id ≠ br.id → definesReg m u.reg = true →
            ∃ x ∈ (pkt ++ (insertBypassOps rt pkt br n).gens).map
                (fun m2 => { m2 with slotIdx := f m2 }) ++ extra,
              (!(x.id == br.id) && definesReg x u.reg) = true := by
          intro m hm hne hdef
          refine ⟨{ m with slotIdx := f m }, ?_, ?_⟩
          · exact List.mem_append_left _ (List.mem_map_of_mem _ hm)
          · simp only [Bool.and_eq_true]
            constructor
            · simp [hne]
            · exact hdef
        rcases hcov with hgen | ⟨m, hm, hne, hdef⟩
        · rcases List.any_eq_true.mp hgen with ⟨m, hm, hpm⟩
          simp only [Bool.and_eq_true] at hpm
          exact hmk m (List.mem_append_left _ hm)
            (by simpa using hpm.1.1) hpm.2
        · exact hmk m (List.mem_append_right _ hm) hne hdef
      simp only [hreg, Bool.not_true, Bool.false_or, Bool.or_eq_true, beq_iff_eq]
      exact Or.inr hprod

theorem insertBypassOpsGo_rtOut (realRT : Tracker) (pkt : List Instr) (brId : Nat) :
    ∀ (us : List Operand) (tryRT : Tracker) (acc : List Instr) (n : Nat),
      (insertBypassOpsGo realRT pkt brId us tryRT acc n).rtOut = realRT := by
  intro us
  induction us with
  | nil => intro _ _ _; rfl
  | cons u rest ih =>
    intro tryRT acc n
    unfold insertBypassOpsGo
    cases hu : u.isRegOp with
    | false => simpa using ih tryRT acc n
    | true =>
      simp only [hu, Bool.not_true, Bool.false_eq_true, if_false]
      by_cases hg : pkt.any (fun m =>
          !(m.id == brId) && !(m.opcode == Opcode.EXTRACT) && definesReg m u.reg) = true
      · simpa [hg] using ih tryRT acc n
      · simp only [Bool.not_eq_true] at hg
        simp only [hg, Bool.false_eq_true, if_false]
        by_cases hc : tryRT.canReserveResources (mkBypassADDI n u.reg) = true
        · simp only [hc, Bool.not_true, Bool.false_eq_true, if_false]
          exact ih (tryRT.reserveResources (mkBypassADDI n u.reg))
            (acc ++ [mkBypassADDI n u.reg]) (n + 1)
        · simp only [Bool.not_eq_true] at hc
          simp [hc]

/-- C7: insertBypassOps probes only against the cloned tracker, so for every
call the committed tracker is returned unchanged; and when every probe
succeeds, it is endPacket that afterwards commits the reservations of the
generated bypasses (a fold of reserveResources) to the real tracker before
running finalization over the enlarged packet. -/
theorem c7_speculative_probe_frame :
    (∀ (rt : Tracker) (pkt : List Instr) (br : Instr) (n : Nat),
      (insertBypassOps rt pkt br n).rtOut = rt) ∧
    (∀ (dg : Nat → Option SUInfo) (fuel : Nat) (st : EPState) (br : Instr),
      st.packet.getLast? = some br → br.branch = true →
      (insertBypassOps st.tracker st.packet br st.nextId).push = false →
      endPacketAux dg (fuel + 1) st =
        finalizeCore dg false
          ⟨st.packet ++ (insertBypassOps st.tracker st.packet br st.nextId).gens,
           (insertBypassOps st.tracker st.packet br st.nextId).gens.foldl
             (fun t b => t.reserveResources b) st.tracker,
           (insertBypassOps st.tracker st.packet br st.nextId).nextId, st.emitted⟩) := by
  constructor
  · intro rt pkt br n
    exact insertBypassOpsGo_rtOut rt pkt br.id br.uses rt [] n
  · intro dg fuel st br hlast hbr hpush
    obtain ⟨pk, tr, nid, em⟩ := st
    simp only at hlast hpush ⊢
    simp only [endPacketAux, hlast, hbr, hpush, Bool.false_eq_true, if_false, if_true]

/-! ### Concrete machines for the C5, C6, C7 witnesses -/

/-- A two-slot automaton configuration. -/
def cfg2 : TrackerCfg := ⟨fun rs _ => rs.length < 2, fun _ i => 2 ^ i⟩

/-- An ordinary instruction defining register 5. -/
def instrA : Instr := ⟨0, .GENERIC, false, [mkRegOp 5 false], [], noSlot⟩

/-- A branch using register 7, which has no producer in the packet. -/
def brInstr : Instr := ⟨1, .GENERIC, true, [], [mkRegOp 7 false], noSlot⟩

/-- A full two-slot tracker (both reservations taken), so the bypass probe
fails. -/
def trFull : Tracker := ⟨cfg2, [.GENERIC, .GENERIC]⟩

/-- A four-slot tracker with two reservations taken, so the bypass probe
succeeds. -/
def trRoom : Tracker := ⟨cfgBig, [.GENERIC, .GENERIC]⟩

def pktAB : List Instr := [instrA, brInstr]

def stFull : EPState := ⟨pktAB, trFull, 10, []⟩

def stRoom : EPState := ⟨pktAB, trRoom, 10, []⟩

theorem c5_branch_push_resplit_witness :
    endPacketAux dgNone (2 + 1) stFull =
      match finalizeCore dgNone true
          ⟨[instrA], stFull.tracker,
           (insertBypassOps stFull.tracker stFull.packet brInstr stFull.nextId).nextId,
           stFull.emitted⟩ with
      | .error e => .error e
      | .ok st2 =>
        endPacketAux dgNone 2
          ⟨(insertBypassOps stFull.tracker stFull.packet brInstr stFull.nextId).gens ++ [brInstr],
           ((insertBypassOps stFull.tracker stFull.packet brInstr stFull.nextId).gens.foldl
             (fun t b => t.reserveResources b) st2.tracker).reserveResources brInstr,
           st2.nextId, st2.emitted⟩ :=
  c5_branch_push_resplit dgNone 2 stFull [instrA] brInstr rfl rfl rfl

theorem c6_branch_operands_produced_witness :
    branchFixupOne
      ((pktAB ++ (insertBypassOps trRoom pktAB brInstr 10).gens).map
        (fun m => { m with slotIdx := m.slotIdx }) ++ []) brInstr = true :=
  c6_branch_operands_produced trRoom pktAB brInstr 10 (by decide) rfl
    (fun m => m.slotIdx) []

theorem c7_speculative_probe_frame_witness :
    (insertBypassOps trRoom pktAB brInstr 10).rtOut = trRoom ∧
    endPacketAux dgNone (2 + 1) stRoom =
      finalizeCore dgNone false
        ⟨stRoom.packet ++ (insertBypassOps stRoom.tracker stRoom.packet brInstr stRoom.nextId).gens,
         (insertBypassOps stRoom.tracker stRoom.packet brInstr stRoom.nextId).gens.foldl
           (fun t b => t.reserveResources b) stRoom.tracker,
         (insertBypassOps stRoom.tracker stRoom.packet brInstr stRoom.nextId).nextId,
         stRoom.emitted⟩ :=
  ⟨c7_speculative_probe_frame.1 trRoom pktAB brInstr 10,
   c7_speculative_probe_frame.2 dgNone 2 stRoom brInstr rfl rfl rfl⟩

/-! ## PrimatePacketPostProc (PrimatePacketPostProc.cpp)

Per finalized packet, the pass keeps three work lists of instruction
pointers (exts, ins, ops) classified once at the start, then runs repair
phases that look instructions up through these lists while inserting new
instructions into the bundle.  The bundle membership is modelled as a store
of instructions (in block order), the work lists as lists of instruction
ids, and pointer dereference as lookup by id in the store. -/

structure PPState where
  store : List Instr
  exts : List Nat
  ins : List Nat
  ops : List Nat
  nextId : Nat
deriving DecidableEq, Repr

def getInstr (st : PPState) (i : Nat) : Option Instr :=
  st.store.find? (fun a => a.id == i)

/-- MachineInstr::setSlotIdx through a pointer: update the store entry. -/
def setSlotOf (st : PPState) (i : Nat) (s : Nat) : PPState :=
  { st with store := st.store.map (fun a => if a.id == i then { a with slotIdx := s } else a) }

/-- MachineOperand::setReg on the use operands of one instruction. -/
def setUsesOf (st : PPState) (i : Nat) (us : List Operand) : PPState :=
  { st with store := st.store.map (fun a => if a.id == i then { a with uses := us } else a) }

/-- MIBundleBuilder::insert(MI.getIterator(), newI): place newI immediately
before the instruction with the given id. -/
def insertBeforeId : List Instr → Nat → Instr → List Instr
  | [], _, x => [x]
  | a :: rest, t, x => if a.id == t then x :: a :: rest else a :: insertBeforeId rest t x

/-- Is slot s taken by one of the lane-read pseudo-ops in the exts list. -/
def extSlotTaken (st : PPState) (s : Nat) : Bool :=
  st.exts.any (fun i => match getInstr st i with
    | some a => a.slotIdx == s
    | none => false)

/-- Generic phase driver: run the body over a snapshot of a work list,
stopping at the first fatal error. -/
def foldPhase {σ : Type} (f : σ → Nat → Except String σ) : σ → List Nat → Except String σ
  | s, [] => .ok s
  | s, i :: rest =>
    match f s i with
    | .error e => .error e
    | .ok s2 => foldPhase f s2 rest

/-- Operand-list variant of the phase driver. -/
def foldPhaseOps (f : PPState → Operand → Except String PPState) :
    PPState → List Operand → Except String PPState
  | st, [] => .ok st
  | st, u :: rest =>
    match f st u with
    | .error e => .error e
    | .ok st2 => foldPhaseOps f st2 rest

/-- The synthesized ADDI bypass of the post-processor (def reg, use reg,
imm 0) at a given slot. -/
def ppADDI (nid r slot : Nat) : Instr :=
  ⟨nid, .ADDI, false, [mkRegOp r false], [mkRegOp r false, mkImmOp 0], slot⟩

/-- The synthesized EXTRACT of addExtractForOp. -/
def ppEXTRACT (nid r slot : Nat) : Instr :=
  ⟨nid, .EXTRACT, false, [mkRegOp r false], [mkRegOp r false, mkImmOp 0], slot⟩

/-- The materializing INSERT of fixMaterializedReg. -/
def ppINSERT (nid r slot : Nat) : Instr :=
  ⟨nid, .INSERT, false, [mkRegOp r false], [mkRegOp r false, mkImmOp 0], slot⟩

/-- Body of the operand loop of addOpForInsert (lines 29-60): per operand of
the insert beyond index 1, check that some op produces the operand register
in slot insert + 1, and synthesize an ADDI bypass there when none does.
The asserts of the source are fatal errors here. -/
def addOpForInsertStep (mi : Instr) (st : PPState) (i : Nat) : Except String PPState :=
  match mi.getOperand i with
  | none => .ok st
  | some reg =>
    if !reg.isRegOp then .ok st
    else
      match st.ops.find? (fun oid => match getInstr st oid with
        | some a => definesRegRaw a reg.reg
        | none => false) with
      | some oid =>
        match getInstr st oid with
        | none => .ok st
        | some f =>
          if f.slotIdx == u32add mi.slotIdx 1 then .ok st
          else .error "found the op but in the wrong slot..."
      | none =>
        let byp : Instr := ppADDI st.nextId reg.reg (u32add mi.slotIdx 1)
        .ok { st with
              store := insertBeforeId st.store mi.id byp,
              ops := st.ops ++ [byp.id], nextId := st.nextId + 1 }

/-- PrimatePacketPostProc::addOpForInsert (lines 19-63). -/
def addOpForInsert (st : PPState) (miId : Nat) : Except String PPState :=
  match getInstr st miId with
  | none => .ok st
  | some mi =>
    match mi.getOperand 1 with
    | none => .error "insert reads non reg."
    | some op1 =>
      if !op1.isRegOp then .error "insert reads non reg."
      else
        match mi.defs.head? with
        | none => .error "insert reads and writes a different register."
        | some defReg =>
          if !(defReg.reg == op1.reg) then
            .error "insert reads and writes a different register."
          else
            foldPhase (addOpForInsertStep mi) st
              (List.range' 2 (mi.defs.length + mi.uses.length - 2))

/-- Body of the operand loop of addExtractForOp (lines 204-270): for each
register use, look for a lane-read pseudo-op producing the register in slot
consumer + 1 or consumer + 2; synthesize one at the first free of those
slots when absent (fatal when both taken), and slot a found but slotless
one the same way.  (The found = true special-casing of X0 in the source is
dead: found is overwritten by the generator search.) -/
def addExtractForOpStep (mi : Instr) (st : PPState) (u : Operand) : Except String PPState :=
  if !u.isRegOp then .ok st
  else
    match st.exts.find? (fun eid => match getInstr st eid with
      | some a => (a.slotIdx == u32add mi.slotIdx 1 || a.slotIdx == u32add mi.slotIdx 2) &&
          definesRegRaw a u.reg
      | none => false) with
    | none =>
      let attempted1 := u32add mi.slotIdx 1
      let attempted2 := if extSlotTaken st attempted1 then u32add attempted1 1 else attempted1
      if extSlotTaken st attempted2 then .error "no slot for required extract..."
      else
        let byp : Instr := ppEXTRACT st.nextId u.reg attempted2
        .ok { st with
              store := insertBeforeId st.store mi.id byp,
              exts := st.exts ++ [byp.id], nextId := st.nextId + 1 }
    | some eid =>
      match getInstr st eid with
      | none => .ok st
      | some e =>
        if e.slotIdx == noSlot then
          let attempted1 := u32add mi.slotIdx 1
          let attempted2 := if extSlotTaken st attempted1 then u32add attempted1 1 else attempted1
          if extSlotTaken st attempted2 then .error "no slot for required extract..."
          else .ok (setSlotOf st eid attempted2)
        else .ok st

/-- PrimatePacketPostProc::addExtractForOp (lines 200-273). -/
def addExtractForOp (st : PPState) (miId : Nat) : Except String PPState :=
  match getInstr st miId with
  | none => .ok st
  | some mi => foldPhaseOps (addExtractForOpStep mi) st mi.uses

/-- PrimatePacketPostProc::fixDanglingExt (lines 65-103): a lane-read
pseudo-op still without a slot takes its first in-packet consumer slot + 1,
or + 2 when + 1 is taken by another lane-read pseudo-op, and it is fatal if
both are taken; no consumer at all fails the assert. -/
def fixDanglingExt (st : PPState) (miId : Nat) : Except String PPState :=
  match getInstr st miId with
  | none => .ok st
  | some mi =>
    match mi.defs.head? with
    | none => .ok st
    | some d =>
      match st.ops.find? (fun oid => match getInstr st oid with
        | some a => usesReg a d.reg
        | none => false) with
      | none => .error "ext not slotted, or bundled with dep"
      | some oid =>
        match getInstr st oid with
        | none => .error "ext not slotted, or bundled with dep"
        | some c =>
          let attempted1 := u32add c.slotIdx 1
          let attempted2 := if extSlotTaken st attempted1 then u32add attempted1 1 else attempted1
          if extSlotTaken st attempted2 then .error "no slot for required extract..."
          else .ok (setSlotOf st miId attempted2)

/-- The INSERT materialization of fixMaterializedReg (lines 182-194): an
INSERT reading and writing the result register at slot producer - 1,
inserted before the producer and appended to the ins work list. -/
def materializeInsert (st : PPState) (mi : Instr) (r : Nat) : PPState :=
  let byp : Instr := ppINSERT st.nextId r (u32sub1 mi.slotIdx)
  { st with
    store := insertBeforeId st.store mi.id byp,
    ins := st.ins ++ [byp.id], nextId := st.nextId + 1 }

structure FMRResult where
  st : PPState
  outInstrs : List Instr
  newSlotIdx : Nat
deriving DecidableEq, Repr

/-- PrimatePacketPostProc::fixMaterializedReg (lines 105-197).  The
consumer search runs over the insert list, falling back to a branch in the
ops list (the pointer comparisons of lines 143-150 amount to: materialize
when neither consumer exists).  A consumer whose matching use is not killed
still triggers materialization, except for a PseudoInsert consumer writing
a different register, which instead requests a carry-over chain in a new
trailing packet (outInstrs). -/
def fixMaterializedReg (st : PPState) (miId : Nat) : Except String FMRResult :=
  match getInstr st miId with
  | none => .ok ⟨st, [], 0⟩
  | some mi =>
    match mi.defs.head? with
    | none => .ok ⟨st, [], 0⟩
    | some d =>
      if !d.isRegOp || d.isKillFlag || d.reg == X0 || mi.branch then .ok ⟨st, [], 0⟩
      else
        let insCons := st.ins.find? (fun i => match getInstr st i with
          | some a => usesReg a d.reg
          | none => false)
        let brCons := st.ops.find? (fun i => match getInstr st i with
          | some a => a.branch && usesReg a d.reg
          | none => false)
        match (match insCons with | some c => some c | none => brCons) with
        | none => .ok ⟨materializeInsert st mi d.reg, [], 0⟩
        | some cid =>
          match getInstr st cid with
          | none => .ok ⟨st, [], 0⟩
          | some c =>
            match c.uses.find? (fun a => a.isRegOp && a.reg == d.reg) with
            | none => .error "instr suddenly fails to use a reg..."
            | some consReg =>
              if consReg.isKillFlag then .ok ⟨st, [], 0⟩
              else
                if c.opcode == Opcode.PseudoInsert then
                  match c.defs.head? with
                  | none => .ok ⟨materializeInsert st mi d.reg, [], 0⟩
                  | some p =>
                    if !(p.reg == d.reg) then
                      match c.getOperand 3 with
                      | none => .ok ⟨st, [], 0⟩
                      | some f3 =>
                        let outI : Instr := ⟨st.nextId, .EXTRACT, false,
                          [mkRegOp d.reg false], [mkRegOp p.reg false, mkImmOp f3.immVal],
                          noSlot⟩
                        .ok ⟨{ st with nextId := st.nextId + 1 }, [outI], c.slotIdx⟩
                    else .ok ⟨materializeInsert st mi d.reg, [], 0⟩
                else .ok ⟨materializeInsert st mi d.reg, [], 0⟩

/-- The operand rewrite loop of fixBranchOperandIndexes (lines 279-308):
register uses are rewritten to the lane alias register X0 + producer slot;
an operand without a producer in the ops list is fatal (X0 is not
exempted: the found flag set for X0 is dead, the producer search and the
llvm_unreachable run for X0 operands too). -/
def fixBranchUsesGo (st : PPState) : List Operand → List Operand → Except String (List Operand)
  | done, [] => .ok done
  | done, u :: rest =>
    if !u.isRegOp then fixBranchUsesGo st (done ++ [u]) rest
    else
      match st.ops.find? (fun oid => match getInstr st oid with
        | some a => definesRegRaw a u.reg
        | none => false) with
      | none => .error "BRANCH NOT WITH CONSUMER OPS!!!!"
      | some oid =>
        match getInstr st oid with
        | none => .error "BRANCH NOT WITH CONSUMER OPS!!!!"
        | some p =>
          fixBranchUsesGo st (done ++ [{ u with reg := X0 + p.slotIdx }]) rest

/-- PrimatePacketPostProc::fixBranchOperandIndexes (lines 275-311). -/
def fixBranchOperandIndexes (st : PPState) (brId : Nat) : Except String PPState :=
  match getInstr st brId with
  | none => .ok st
  | some br =>
    match fixBranchUsesGo st [] br.uses with
    | .error e => .error e
    | .ok newUses => .ok (setUsesOf st brId newUses)

/-- The work-list classification at the head of the per-bundle loop of
runOnMachineFunction (lines 359-380). -/
def classifyGo : List Instr → List Nat × List Nat × List Nat
  | [] => ([], [], [])
  | a :: rest =>
    let (es, is2, os) := classifyGo rest
    if a.opcode == Opcode.EXTRACT then (a.id :: es, is2, os)
    else if a.opcode == Opcode.PseudoInsert then (es, a.id :: is2, os)
    else if !(a.opcode == Opcode.BUNDLE) && !(a.opcode == Opcode.IMPLICIT_DEF) &&
        !(a.opcode == Opcode.PseudoRET) then (es, is2, a.id :: os)
    else (es, is2, os)

/-- The opcodes skipped by the verify and materialize loops (lines
391-395 and 412-416). -/
def isSpecialFour (op : Opcode) : Bool :=
  op == .OUTPUTHEADER || op == .OUTPUTMETA || op == .INPUT_EXTRACT || op == .MATCH

def phase2Step (st : PPState) (oid : Nat) : Except String PPState :=
  match getInstr st oid with
  | none => .ok st
  | some op =>
    if isSpecialFour op.opcode then .ok st
    else if !op.branch then addExtractForOp st oid
    else .ok st

def phase3Step (st : PPState) (eid : Nat) : Except String PPState :=
  match getInstr st eid with
  | none => .ok st
  | some e => if e.slotIdx == noSlot then fixDanglingExt st eid else .ok st

/-- The carry-over chain built for each outInstr of fixMaterializedReg
(lines 422-450): a fresh trailing packet [PseudoInsert, ADDI, extract] at
slots base, base + 1, base + 2. -/
def buildCarryBundles (slotBase : Nat) : List Instr → Nat → List (List Instr) × Nat
  | [], nid => ([], nid)
  | newOp :: rest, nid =>
    let dest := (newOp.defs.headD (mkRegOp 0 false)).reg
    let newOp2 := { newOp with slotIdx := u32add slotBase 2 }
    let addiI : Instr := ⟨nid, .ADDI, false, [mkRegOp dest false],
      [mkRegOp dest false, mkImmOp 0], u32add slotBase 1⟩
    let insI : Instr := ⟨nid + 1, .PseudoInsert, false, [mkRegOp dest false],
      [mkRegOp dest true, mkRegOp dest true, mkImmOp 0], slotBase⟩
    let (bs, nid2) := buildCarryBundles slotBase rest (nid + 2)
    ([insI, addiI, newOp2] :: bs, nid2)

def phase4Step (acc : PPState × List (List Instr)) (oid : Nat) :
    Except String (PPState × List (List Instr)) :=
  match getInstr acc.1 oid with
  | none => .ok acc
  | some op =>
    if isSpecialFour op.opcode then .ok acc
    else
      match fixMaterializedReg acc.1 oid with
      | .error e => .error e
      | .ok res =>
        if res.outInstrs.isEmpty then .ok (res.st, acc.2)
        else
          match buildCarryBundles res.newSlotIdx res.outInstrs res.st.nextId with
          | (bs, nid2) => .ok ({ res.st with nextId := nid2 }, acc.2 ++ bs)

def phase5Step (st : PPState) (oid : Nat) : Except String PPState :=
  match getInstr st oid with
  | none => .ok st
  | some op => if op.branch then fixBranchOperandIndexes st oid else .ok st

/-- The per-bundle body of PrimatePacketPostProc::runOnMachineFunction
(lines 350-464): classify the members into work lists, then run the insert
verification, extract synthesis, dangling-extract slotting, result
materialization (collecting carry-over bundles) and branch operand rewrite
phases in order.  Each loop iterates the work list as it stands at the
start of that loop, as the range-for loops in the source do. -/
def ppRunPacket (pkt : List Instr) (n : Nat) :
    Except String (PPState × List (List Instr)) :=
  match classifyGo pkt with
  | (es, is2, os) =>
    let st0 : PPState := ⟨pkt, es, is2, os, n⟩
    match foldPhase addOpForInsert st0 st0.ins with
    | .error e => .error e
    | .ok st1 =>
      match foldPhase phase2Step st1 st1.ops with
      | .error e => .error e
      | .ok st2 =>
        match foldPhase phase3Step st2 st2.exts with
        | .error e => .error e
        | .ok st3 =>
          match foldPhase phase4Step (st3, []) st3.ops with
          | .error e => .error e
          | .ok (st4, extras) =>
            match foldPhase phase5Step st4 st4.ops with
            | .error e => .error e
            | .ok st5 => .ok (st5, extras)

/-! ### Store lookup lemmas -/

theorem find?_insertBeforeId_ne (l : List Instr) (t : Nat) (x : Instr) (q : Nat)
    (hq : x.id ≠ q) :
    (insertBeforeId l t x).find? (fun a => a.id == q) = l.find? (fun a => a.id == q) := by
  induction l with
  | nil =>
    simp only [insertBeforeId, List.find?]
    have : (x.id == q) = false := beq_eq_false_iff_ne.mpr hq
    simp [this]
  | cons a rest ih =>
    simp only [insertBeforeId]
    by_cases ht : a.id == t
    · simp only [ht, if_true]
      have hx : (x.id == q) = false := beq_eq_false_iff_ne.mpr hq
      simp [List.find?, hx]
    · simp only [ht, Bool.false_eq_true, if_false]
      by_cases ha : a.id == q
      · simp [List.find?, ha]
      · simp only [List.find?]
        simp only [ha, Bool.false_eq_true]
        exact ih

theorem mem_insertBeforeId (l : List Instr) (t : Nat) (x : Instr) (m : Instr)
    (hm : m ∈ l) : m ∈ insertBeforeId l t x := by
  induction l with
  | nil => cases hm
  | cons a rest ih =>
    simp only [insertBeforeId]
    by_cases ht : a.id == t
    · simp only [ht, if_true]
      exact List.mem_cons_of_mem x hm
    · simp only [ht, Bool.false_eq_true, if_false]
      rcases List.mem_cons.mp hm with rfl | hm2
      · exact List.mem_cons_self m _
      · exact List.mem_cons_of_mem a (ih hm2)

theorem self_mem_insertBeforeId (l : List Instr) (t : Nat) (x : Instr) :
    x ∈ insertBeforeId l t x := by
  induction l with
  | nil => simp [insertBeforeId]
  | cons a rest ih =>
    simp only [insertBeforeId]
    by_cases ht : a.id == t
    · simp [ht]
    · simp only [ht, Bool.false_eq_true, if_false]
      exact List.mem_cons_of_mem a ih

theorem find?_map_id_preserving (f : Instr → Instr) (hf : ∀ a, (f a).id = a.id)
    (l : List Instr) (q : Nat) :
    (l.map f).find? (fun a => a.id == q) = (l.find? (fun a => a.id == q)).map f := by
  induction l with
  | nil => simp
  | cons a rest ih =>
    simp only [List.map_cons, List.find?]
    rw [hf a]
    by_cases ha : a.id == q
    · simp [ha]
    · simp only [ha, Bool.false_eq_true]
      exact ih

theorem find?_id_eq_some_of_nodup (l : List Instr) (m : Instr)
    (hnodup : (l.map Instr.id).Nodup) (hm : m ∈ l) :
    l.find? (fun a => a.id == m.id) = some m := by
  induction l with
  | nil => cases hm
  | cons a rest ih =>
    simp only [List.map_cons, List.nodup_cons] at hnodup
    rcases List.mem_cons.mp hm with rfl | hm2
    · simp [List.find?]
    · have hne : a.id ≠ m.id := by
        intro heq
        exact hnodup.1 (heq ▸ List.mem_map_of_mem Instr.id hm2)
      simp only [List.find?]
      have : (a.id == m.id) = false := beq_eq_false_iff_ne.mpr hne
      simp only [this, Bool.false_eq_true]
      exact ih hnodup.2 hm2

/-! ### The C8 invariant

O is the ordinary instruction under consideration and r its result
register.  The invariant carried through the post-processing phases: the
store still holds O unchanged; every store id and every work-list id is
below the fresh-id counter; no lane-read work-list entry is O; every
insert-list consumer of r is a synthesized INSERT materializer (whose use
of r is not killed, and whose opcode is not PseudoInsert); and no branch
in the ops list uses r. -/
def C8Inv (O : Instr) (r : Nat) (st : PPState) : Prop :=
  getInstr st O.id = some O ∧
  (∀ m ∈ st.store, m.id < st.nextId) ∧
  (∀ i ∈ st.exts, i < st.nextId) ∧
  (∀ i ∈ st.ins, i < st.nextId) ∧
  (∀ i ∈ st.ops, i < st.nextId) ∧
  (∀ i ∈ st.exts, i ≠ O.id) ∧
  (∀ i ∈ st.ins, ∀ a, getInstr st i = some a → usesReg a r = true →
    a.opcode = Opcode.INSERT ∧
    ∀ b, a.uses.find? (fun b2 => b2.isRegOp && b2.reg == r) = some b →
      b.isKillFlag = false) ∧
  (∀ i ∈ st.ops, ∀ a, getInstr st i = some a → a.branch = true → usesReg a r = false)

/-- The conclusion of C8: a materializing lane-write op for register r is
present in the store. -/
def hasMaterializer (r : Nat) (st : PPState) : Prop :=
  ∃ m ∈ st.store, m.opcode = Opcode.INSERT ∧ definesReg m r = true

theorem mem_of_mem_insertBeforeId (l : List Instr) (t : Nat) (x : Instr) (m : Instr)
    (hm : m ∈ insertBeforeId l t x) : m ∈ l ∨ m = x := by
  induction l with
  | nil =>
    simp only [insertBeforeId] at hm
    rcases List.mem_singleton.mp hm with rfl
    exact Or.inr rfl
  | cons a rest ih =>
    simp only [insertBeforeId] at hm
    by_cases ht : a.id == t
    · simp only [ht, if_true] at hm
      rcases List.mem_cons.mp hm with rfl | hm2
      · exact Or.inr rfl
      · exact Or.inl hm2
    · simp only [ht, Bool.false_eq_true, if_false] at hm
      rcases List.mem_cons.mp hm with rfl | hm2
      · exact Or.inl (List.mem_cons_self m _)
      · rcases ih hm2 with h | h
        · exact Or.inl (List.mem_cons_of_mem a h)
        · exact Or.inr h

theorem find?_insertBeforeId_self (l : List Instr) (t : Nat) (x : Instr)
    (hl : ∀ a ∈ l, a.id ≠ x.id) :
    (insertBeforeId l t x).find? (fun a => a.id == x.id) = some x := by
  induction l with
  | nil => simp [insertBeforeId, List.find?]
  | cons a rest ih =>
    simp only [insertBeforeId]
    have hane : (a.id == x.id) = false :=
      beq_eq_false_iff_ne.mpr (hl a (List.mem_cons_self a rest))
    by_cases ht : a.id == t
    · simp [ht, List.find?]
    · simp only [ht, Bool.false_eq_true, if_false, List.find?, hane, Bool.false_eq_true]
      exact ih (fun a2 ha2 => hl a2 (List.mem_cons_of_mem a ha2))

/-- O is in the store (from the invariant), so its id is below nextId. -/
theorem C8Inv_O_lt (O : Instr) (r : Nat) (st : PPState) (hinv : C8Inv O r st) :
    O.id < st.nextId := by
  have hmem : O ∈ st.store := List.mem_of_find?_eq_some hinv.1
  exact hinv.2.1 O hmem

/-- getInstr after a fresh-id insertion, looking up an old id. -/
theorem getInstr_insert_ne (st : PPState) (t : Nat) (x : Instr) (q : Nat)
    (es2 is3 os2 : List Nat)
    (hq : x.id ≠ q) :
    getInstr ⟨insertBeforeId st.store t x, es2, is3, os2, st.nextId + 1⟩ q =
      getInstr st q := by
  unfold getInstr
  exact find?_insertBeforeId_ne st.store t x q hq

/-- setSlotOf preserves lookups up to a slot update, and exactly for other
ids. -/
theorem getInstr_setSlotOf (st : PPState) (j : Nat) (s : Nat) (q : Nat) :
    getInstr (setSlotOf st j s) q =
      (getInstr st q).map (fun a => if a.id == j then { a with slotIdx := s } else a) := by
  unfold getInstr setSlotOf
  exact find?_map_id_preserving _ (fun a => by by_cases h : a.id == j <;> simp [h]) st.store q

theorem getInstr_setUsesOf (st : PPState) (j : Nat) (us : List Operand) (q : Nat) :
    getInstr (setUsesOf st j us) q =
      (getInstr st q).map (fun a => if a.id == j then { a with uses := us } else a) := by
  unfold getInstr setUsesOf
  exact find?_map_id_preserving _ (fun a => by by_cases h : a.id == j <;> simp [h]) st.store q

theorem usesReg_eq_of_uses_eq (a b : Instr) (h : b.uses = a.uses) (r : Nat) :
    usesReg b r = usesReg a r := by
  unfold usesReg
  rw [h]

/-- Fresh-id insertion into the store together with an append to the exts
list preserves the invariant (used for the EXTRACT synthesized by
addExtractForOp; the new entry is a lane-read op, irrelevant to the insert
and branch conditions). -/
theorem C8Inv_insert_exts (O : Instr) (r : Nat) (st : PPState) (t : Nat) (x : Instr)
    (hinv : C8Inv O r st) (hx : x.id = st.nextId) :
    C8Inv O r ⟨insertBeforeId st.store t x, st.exts ++ [x.id], st.ins, st.ops,
      st.nextId + 1⟩ := by
  obtain ⟨hP, hSB, hEB, hIB, hOB, hEO, hQ, hR⟩ := hinv
  have hOlt : O.id < st.nextId := C8Inv_O_lt O r st ⟨hP, hSB, hEB, hIB, hOB, hEO, hQ, hR⟩
  refine ⟨?_, ?_, ?_, ?_, ?_, ?_, ?_, ?_⟩
  · rw [getInstr_insert_ne st t x O.id _ _ _ (by omega)]
    exact hP
  · intro m hm
    rcases mem_of_mem_insertBeforeId st.store t x m hm with h | rfl
    · exact Nat.lt_succ_of_lt (hSB m h)
    · rw [hx]
      exact Nat.lt_succ_self st.nextId
  · intro i hi
    rcases List.mem_append.mp hi with h | h
    · exact Nat.lt_succ_of_lt (hEB i h)
    · rcases List.mem_singleton.mp h with rfl
      rw [hx]
      exact Nat.lt_succ_self st.nextId
  · intro i hi
    exact Nat.lt_succ_of_lt (hIB i hi)
  · intro i hi
    exact Nat.lt_succ_of_lt (hOB i hi)
  · intro i hi
    rcases List.mem_append.mp hi with h | h
    · exact hEO i h
    · rcases List.mem_singleton.mp h with rfl
      rw [hx]
      omega
  · intro i hi a ha hu
    rw [getInstr_insert_ne st t x i _ _ _ (by have := hIB i hi; omega)] at ha
    exact hQ i hi a ha hu
  · intro i hi a ha hb
    rw [getInstr_insert_ne st t x i _ _ _ (by have := hOB i hi; omega)] at ha
    exact hR i hi a ha hb

/-- Fresh non-branch insertion appended to the ops list preserves the
invariant (the ADDI bypass of addOpForInsert). -/
theorem C8Inv_insert_ops (O : Instr) (r : Nat) (st : PPState) (t : Nat) (x : Instr)
    (hinv : C8Inv O r st) (hx : x.id = st.nextId) (hxb : x.branch = false) :
    C8Inv O r ⟨insertBeforeId st.store t x, st.exts, st.ins, st.ops ++ [x.id],
      st.nextId + 1⟩ := by
  obtain ⟨hP, hSB, hEB, hIB, hOB, hEO, hQ, hR⟩ := hinv
  have hOlt : O.id < st.nextId := C8Inv_O_lt O r st ⟨hP, hSB, hEB, hIB, hOB, hEO, hQ, hR⟩
  refine ⟨?_, ?_, ?_, ?_, ?_, ?_, ?_, ?_⟩
  · rw [getInstr_insert_ne st t x O.id _ _ _ (by omega)]
    exact hP
  · intro m hm
    rcases mem_of_mem_insertBeforeId st.store t x m hm with h | rfl
    · exact Nat.lt_succ_of_lt (hSB m h)
    · rw [hx]
      exact Nat.lt_succ_self st.nextId
  · intro i hi
    exact Nat.lt_succ_of_lt (hEB i hi)
  · intro i hi
    exact Nat.lt_succ_of_lt (hIB i hi)
  · intro i hi
    rcases List.mem_append.mp hi with h | h
    · exact Nat.lt_succ_of_lt (hOB i h)
    · rcases List.mem_singleton.mp h with rfl
      rw [hx]
      exact Nat.lt_succ_self st.nextId
  · exact hEO
  · intro i hi a ha hu
    rw [getInstr_insert_ne st t x i _ _ _ (by have := hIB i hi; omega)] at ha
    exact hQ i hi a ha hu
  · intro i hi a ha hb
    rcases List.mem_append.mp hi with h | h
    · rw [getInstr_insert_ne st t x i _ _ _ (by have := hOB i h; omega)] at ha
      exact hR i h a ha hb
    · rcases List.mem_singleton.mp h with rfl
      have hstore : ∀ a2 ∈ st.store, a2.id ≠ x.id := by
        intro a2 ha2
        have := hSB a2 ha2
        omega
      have hself : getInstr ⟨insertBeforeId st.store t x, st.exts, st.ins,
          st.ops ++ [x.id], st.nextId + 1⟩ x.id = some x := by
        unfold getInstr
        exact find?_insertBeforeId_self st.store t x hstore
      rw [hself] at ha
      cases ha
      rw [hxb] at hb
      cases hb

/-- The materializer insertion of fixMaterializedReg preserves the
invariant: the new instruction is an INSERT whose sole register use is not
killed, so the insert-consumer condition holds for it. -/
theorem C8Inv_materializeInsert (O : Instr) (r : Nat) (st : PPState) (mi : Instr)
    (r2 : Nat) (hinv : C8Inv O r st) :
    C8Inv O r (materializeInsert st mi r2) := by
  obtain ⟨hP, hSB, hEB, hIB, hOB, hEO, hQ, hR⟩ := hinv
  have hOlt : O.id < st.nextId := C8Inv_O_lt O r st ⟨hP, hSB, hEB, hIB, hOB, hEO, hQ, hR⟩
  have hbid : (ppINSERT st.nextId r2 (u32sub1 mi.slotIdx)).id = st.nextId := rfl
  unfold materializeInsert
  refine ⟨?_, ?_, ?_, ?_, ?_, ?_, ?_, ?_⟩
  · rw [getInstr_insert_ne st mi.id _ O.id _ _ _ (by rw [hbid]; omega)]
    exact hP
  · intro m hm
    rcases mem_of_mem_insertBeforeId st.store mi.id _ m hm with h | rfl
    · exact Nat.lt_succ_of_lt (hSB m h)
    · rw [hbid]
      exact Nat.lt_succ_self st.nextId
  · intro i hi
    exact Nat.lt_succ_of_lt (hEB i hi)
  · intro i hi
    rcases List.mem_append.mp hi with h | h
    · exact Nat.lt_succ_of_lt (hIB i h)
    · rcases List.mem_singleton.mp h with rfl
      rw [hbid]
      exact Nat.lt_succ_self st.nextId
  · intro i hi
    exact Nat.lt_succ_of_lt (hOB i hi)
  · exact hEO
  · intro i hi a ha hu
    rcases List.mem_append.mp hi with h | h
    · rw [getInstr_insert_ne st mi.id _ i _ _ _ (by rw [hbid]; have := hIB i h; omega)] at ha
      exact hQ i h a ha hu
    · rcases List.mem_singleton.mp h with rfl
      have hstore : ∀ a2 ∈ st.store, a2.id ≠ (ppINSERT st.nextId r2 (u32sub1 mi.slotIdx)).id := by
        intro a2 ha2
        rw [hbid]
        have := hSB a2 ha2
        omega
      have hself : getInstr ⟨insertBeforeId st.store mi.id
            (ppINSERT st.nextId r2 (u32sub1 mi.slotIdx)),
          st.exts, st.ins ++ [(ppINSERT st.nextId r2 (u32sub1 mi.slotIdx)).id],
          st.ops, st.nextId + 1⟩ (ppINSERT st.nextId r2 (u32sub1 mi.slotIdx)).id =
          some (ppINSERT st.nextId r2 (u32sub1 mi.slotIdx)) := by
        unfold getInstr
        exact find?_insertBeforeId_self st.store mi.id _ hstore
      rw [hself] at ha
      cases ha
      constructor
      · rfl
      · intro b hb
        have hr2 : r2 = r := by
          unfold usesReg ppINSERT at hu
          simp only [List.any_cons, List.any_nil, Bool.or_false, Bool.or_eq_true,
            Bool.and_eq_true, beq_iff_eq, mkRegOp, mkImmOp] at hu
          rcases hu with h1 | h2
          · exact h1.2
          · exact absurd h2.1 (by simp)
        subst hr2
        unfold ppINSERT mkRegOp mkImmOp at hb
        simp only [List.find?] at hb
        simp at hb
        rw [← hb]
  · intro i hi a ha hb
    rw [getInstr_insert_ne st mi.id _ i _ _ _ (by rw [hbid]; have := hOB i hi; omega)] at ha
    exact hR i hi a ha hb

/-- Setting the slot of an instruction other than O preserves the
invariant. -/
theorem C8Inv_setSlot (O : Instr) (r : Nat) (st : PPState) (j : Nat) (s : Nat)
    (hinv : C8Inv O r st) (hj : j ≠ O.id) :
    C8Inv O r (setSlotOf st j s) := by
  obtain ⟨hP, hSB, hEB, hIB, hOB, hEO, hQ, hR⟩ := hinv
  refine ⟨?_, ?_, ?_, ?_, ?_, ?_, ?_, ?_⟩
  · rw [getInstr_setSlotOf, hP]
    have hne : (O.id == j) = false := beq_eq_false_iff_ne.mpr (Ne.symm hj)
    simp only [Option.map_some', hne, Bool.false_eq_true, if_false]
  · intro m hm
    simp only [setSlotOf, List.mem_map] at hm
    rcases hm with ⟨a, ha, rfl⟩
    by_cases h : a.id == j <;> simp only [h, if_true, Bool.false_eq_true, if_false] <;>
      exact hSB a ha
  · exact hEB
  · exact hIB
  · exact hOB
  · exact hEO
  · intro i hi a ha hu
    rw [getInstr_setSlotOf] at ha
    cases hg : getInstr st i with
    | none =>
      rw [hg] at ha
      cases ha
    | some a0 =>
      rw [hg] at ha
      simp only [Option.map_some', Option.some_inj] at ha
      subst ha
      have huses : (if a0.id == j then { a0 with slotIdx := s } else a0).uses = a0.uses := by
        by_cases h : a0.id == j <;> simp [h]
      have hopc : (if a0.id == j then { a0 with slotIdx := s } else a0).opcode = a0.opcode := by
        by_cases h : a0.id == j <;> simp [h]
      rw [usesReg_eq_of_uses_eq a0 _ huses] at hu
      have hres := hQ i hi a0 hg hu
      refine ⟨by rw [hopc, hres.1], ?_⟩
      intro b hb
      rw [huses] at hb
      exact hres.2 b hb
  · intro i hi a ha hb
    rw [getInstr_setSlotOf] at ha
    cases hg : getInstr st i with
    | none =>
      rw [hg] at ha
      cases ha
    | some a0 =>
      rw [hg] at ha
      simp only [Option.map_some', Option.some_inj] at ha
      subst ha
      have huses : (if a0.id == j then { a0 with slotIdx := s } else a0).uses = a0.uses := by
        by_cases h : a0.id == j <;> simp [h]
      have hbr : (if a0.id == j then { a0 with slotIdx := s } else a0).branch = a0.branch := by
        by_cases h : a0.id == j <;> simp [h]
      rw [hbr] at hb
      rw [usesReg_eq_of_uses_eq a0 _ huses]
      exact hR i hi a0 hg hb

/-- Members of a list with nodup ids are determined by their id. -/
theorem eq_of_mem_of_id_eq (l : List Instr) (hnodup : (l.map Instr.id).Nodup)
    (a b : Instr) (ha : a ∈ l) (hb : b ∈ l) (hid : a.id = b.id) : a = b := by
  induction l with
  | nil => cases ha
  | cons c rest ih =>
    simp only [List.map_cons, List.nodup_cons] at hnodup
    rcases List.mem_cons.mp ha with rfl | ha2
    · rcases List.mem_cons.mp hb with rfl | hb2
      · rfl
      · exact absurd (hid ▸ List.mem_map_of_mem Instr.id hb2) hnodup.1
    · rcases List.mem_cons.mp hb with rfl | hb2
      · exact absurd (hid ▸ List.mem_map_of_mem Instr.id ha2) hnodup.1
      · exact ih hnodup.2 ha2 hb2

/-- Raising the fresh-id counter preserves the invariant. -/
theorem C8Inv_nextId_mono (O : Instr) (r : Nat) (st : PPState) (n2 : Nat)
    (hinv : C8Inv O r st) (hn : st.nextId ≤ n2) :
    C8Inv O r ⟨st.store, st.exts, st.ins, st.ops, n2⟩ := by
  obtain ⟨hP, hSB, hEB, hIB, hOB, hEO, hQ, hR⟩ := hinv
  exact ⟨hP, fun m hm => Nat.lt_of_lt_of_le (hSB m hm) hn,
    fun i hi => Nat.lt_of_lt_of_le (hEB i hi) hn,
    fun i hi => Nat.lt_of_lt_of_le (hIB i hi) hn,
    fun i hi => Nat.lt_of_lt_of_le (hOB i hi) hn,
    hEO, hQ, hR⟩

theorem hasMaterializer_insertBefore (r : Nat) (st : PPState) (t : Nat) (x : Instr)
    (es2 is3 os2 : List Nat) (n2 : Nat)
    (h : hasMaterializer r st) :
    hasMaterializer r ⟨insertBeforeId st.store t x, es2, is3, os2, n2⟩ := by
  rcases h with ⟨m, hm, hmo, hmd⟩
  exact ⟨m, mem_insertBeforeId st.store t x m hm, hmo, hmd⟩

theorem hasMaterializer_materializeInsert (r : Nat) (st : PPState) (mi : Instr) (r2 : Nat)
    (h : hasMaterializer r st) :
    hasMaterializer r (materializeInsert st mi r2) := by
  rcases h with ⟨m, hm, hmo, hmd⟩
  exact ⟨m, mem_insertBeforeId st.store mi.id _ m hm, hmo, hmd⟩

theorem hasMaterializer_setSlot (r : Nat) (st : PPState) (j s : Nat)
    (h : hasMaterializer r st) :
    hasMaterializer r (setSlotOf st j s) := by
  rcases h with ⟨m, hm, hmo, hmd⟩
  refine ⟨if m.id == j then { m with slotIdx := s } else m, ?_, ?_, ?_⟩
  · simp only [setSlotOf]
    exact List.mem_map_of_mem _ hm
  · by_cases hc : m.id == j <;> simp [hc, hmo]
  · by_cases hc : m.id == j <;> simp only [hc, if_true, Bool.false_eq_true, if_false] <;>
      exact hmd

theorem hasMaterializer_setUses (r : Nat) (st : PPState) (j : Nat) (us : List Operand)
    (h : hasMaterializer r st) :
    hasMaterializer r (setUsesOf st j us) := by
  rcases h with ⟨m, hm, hmo, hmd⟩
  refine ⟨if m.id == j then { m with uses := us } else m, ?_, ?_, ?_⟩
  · simp only [setUsesOf]
    exact List.mem_map_of_mem _ hm
  · by_cases hc : m.id == j <;> simp [hc, hmo]
  · by_cases hc : m.id == j <;> simp only [hc, if_true, Bool.false_eq_true, if_false] <;>
      exact hmd

/-! ### Classification lemmas -/

theorem classify_exts_spec (pkt : List Instr) :
    ∀ i ∈ (classifyGo pkt).1, ∃ a ∈ pkt, a.id = i ∧ a.opcode = Opcode.EXTRACT := by
  induction pkt with
  | nil => intro i hi; cases hi
  | cons a rest ih =>
    intro i hi
    simp only [classifyGo] at hi
    rcases hcl : classifyGo rest with ⟨es, is2, os⟩
    rw [hcl] at hi ih
    by_cases h1 : a.opcode == Opcode.EXTRACT
    · simp only [h1, if_true] at hi
      rcases List.mem_cons.mp hi with rfl | hi2
      · exact ⟨a, List.mem_cons_self a rest, rfl, beq_iff_eq.mp h1⟩
      · rcases ih i hi2 with ⟨a2, ha2, hid, hop⟩
        exact ⟨a2, List.mem_cons_of_mem a ha2, hid, hop⟩
    · simp only [h1, Bool.false_eq_true, if_false] at hi
      have hrest : i ∈ es := by
        by_cases h2 : a.opcode == Opcode.PseudoInsert
        · simpa [h2] using hi
        · by_cases h3 : (!(a.opcode == Opcode.BUNDLE) && !(a.opcode == Opcode.IMPLICIT_DEF) &&
              !(a.opcode == Opcode.PseudoRET)) = true
          · simpa [h2, h3] using hi
          · simp only [Bool.not_eq_true] at h3
            simpa [h2, h3] using hi
      rcases ih i hrest with ⟨a2, ha2, hid, hop⟩
      exact ⟨a2, List.mem_cons_of_mem a ha2, hid, hop⟩

theorem classify_ins_spec (pkt : List Instr) :
    ∀ i ∈ (classifyGo pkt).2.1, ∃ a ∈ pkt, a.id = i ∧ a.opcode = Opcode.PseudoInsert := by
  induction pkt with
  | nil => intro i hi; cases hi
  | cons a rest ih =>
    intro i hi
    simp only [classifyGo] at hi
    rcases hcl : classifyGo rest with ⟨es, is2, os⟩
    rw [hcl] at hi ih
    by_cases h1 : a.opcode == Opcode.EXTRACT
    · simp only [h1, if_true] at hi
      rcases ih i hi with ⟨a2, ha2, hid, hop⟩
      exact ⟨a2, List.mem_cons_of_mem a ha2, hid, hop⟩
    · simp only [h1, Bool.false_eq_true, if_false] at hi
      by_cases h2 : a.opcode == Opcode.PseudoInsert
      · simp only [h2, if_true] at hi
        rcases List.mem_cons.mp hi with rfl | hi2
        · exact ⟨a, List.mem_cons_self a rest, rfl, beq_iff_eq.mp h2⟩
        · rcases ih i hi2 with ⟨a2, ha2, hid, hop⟩
          exact ⟨a2, List.mem_cons_of_mem a ha2, hid, hop⟩
      · have hrest : i ∈ is2 := by
          by_cases h3 : (!(a.opcode == Opcode.BUNDLE) && !(a.opcode == Opcode.IMPLICIT_DEF) &&
              !(a.opcode == Opcode.PseudoRET)) = true
          · simpa [h2, h3] using hi
          · simp only [Bool.not_eq_true] at h3
            simpa [h2, h3] using hi
        rcases ih i hrest with ⟨a2, ha2, hid, hop⟩
        exact ⟨a2, List.mem_cons_of_mem a ha2, hid, hop⟩

theorem classify_ops_spec (pkt : List Instr) :
    ∀ i ∈ (classifyGo pkt).2.2, ∃ a ∈ pkt, a.id = i := by
  induction pkt with
  | nil => intro i hi; cases hi
  | cons a rest ih =>
    intro i hi
    simp only [classifyGo] at hi
    rcases hcl : classifyGo rest with ⟨es, is2, os⟩
    rw [hcl] at hi ih
    by_cases h1 : a.opcode == Opcode.EXTRACT
    · simp only [h1, if_true] at hi
      rcases ih i hi with ⟨a2, ha2, hid⟩
      exact ⟨a2, List.mem_cons_of_mem a ha2, hid⟩
    · simp only [h1, Bool.false_eq_true, if_false] at hi
      by_cases h2 : a.opcode == Opcode.PseudoInsert
      · simp only [h2, if_true] at hi
        rcases ih i hi with ⟨a2, ha2, hid⟩
        exact ⟨a2, List.mem_cons_of_mem a ha2, hid⟩
      · by_cases h3 : (!(a.opcode == Opcode.BUNDLE) && !(a.opcode == Opcode.IMPLICIT_DEF) &&
            !(a.opcode == Opcode.PseudoRET)) = true
        · simp only [h2, Bool.false_eq_true, if_false, h3, if_true] at hi
          rcases List.mem_cons.mp hi with rfl | hi2
          · exact ⟨a, List.mem_cons_self a rest, rfl⟩
          · rcases ih i hi2 with ⟨a2, ha2, hid⟩
            exact ⟨a2, List.mem_cons_of_mem a ha2, hid⟩
        · simp only [Bool.not_eq_true] at h3
          simp only [h2, Bool.false_eq_true, if_false, h3, if_false] at hi
          rcases ih i hi with ⟨a2, ha2, hid⟩
          exact ⟨a2, List.mem_cons_of_mem a ha2, hid⟩

theorem classify_ops_mem (pkt : List Instr) (O : Instr) (hO : O ∈ pkt)
    (h1 : O.opcode ≠ Opcode.EXTRACT) (h2 : O.opcode ≠ Opcode.PseudoInsert)
    (h3 : O.opcode ≠ Opcode.BUNDLE) (h4 : O.opcode ≠ Opcode.IMPLICIT_DEF)
    (h5 : O.opcode ≠ Opcode.PseudoRET) :
    O.id ∈ (classifyGo pkt).2.2 := by
  induction pkt with
  | nil => cases hO
  | cons a rest ih =>
    simp only [classifyGo]
    rcases hcl : classifyGo rest with ⟨es, is2, os⟩
    rw [hcl] at ih
    rcases List.mem_cons.mp hO with rfl | hO2
    · have hb1 : (O.opcode == Opcode.EXTRACT) = false := beq_eq_false_iff_ne.mpr h1
      have hb2 : (O.opcode == Opcode.PseudoInsert) = false := beq_eq_false_iff_ne.mpr h2
      have hb3 : (O.opcode == Opcode.BUNDLE) = false := beq_eq_false_iff_ne.mpr h3
      have hb4 : (O.opcode == Opcode.IMPLICIT_DEF) = false := beq_eq_false_iff_ne.mpr h4
      have hb5 : (O.opcode == Opcode.PseudoRET) = false := beq_eq_false_iff_ne.mpr h5
      simp [hb1, hb2, hb3, hb4, hb5]
    · have hmem := ih hO2
      by_cases hc1 : a.opcode == Opcode.EXTRACT
      · simpa [hc1] using hmem
      · by_cases hc2 : a.opcode == Opcode.PseudoInsert
        · simpa [hc1, hc2] using hmem
        · by_cases hc3 : (!(a.opcode == Opcode.BUNDLE) && !(a.opcode == Opcode.IMPLICIT_DEF) &&
              !(a.opcode == Opcode.PseudoRET)) = true
          · simp only [hc1, Bool.false_eq_true, if_false, hc2, hc3, if_true]
            exact List.mem_cons_of_mem _ hmem
          · simp only [Bool.not_eq_true] at hc3
            simpa [hc1, hc2, hc3] using hmem

/-! ### Generic phase driver lemmas -/

theorem foldPhase_inv (O : Instr) (r : Nat) (f : PPState → Nat → Except String PPState)
    (Pside : Nat → Prop)
    (hf : ∀ st i st2, Pside i → C8Inv O r st → f st i = .ok st2 →
      C8Inv O r st2 ∧ (∃ tail, st2.ops = st.ops ++ tail)) :
    ∀ (ids : List Nat) (st st2 : PPState), (∀ i ∈ ids, Pside i) → C8Inv O r st →
      foldPhase f st ids = .ok st2 →
      C8Inv O r st2 ∧ (∃ tail, st2.ops = st.ops ++ tail) := by
  intro ids
  induction ids with
  | nil =>
    intro st st2 _ hinv hrun
    simp only [foldPhase] at hrun
    cases hrun
    exact ⟨hinv, [], (List.append_nil _).symm⟩
  | cons i rest ih =>
    intro st st2 hside hinv hrun
    simp only [foldPhase] at hrun
    cases hstep : f st i with
    | error e =>
      rw [hstep] at hrun
      cases hrun
    | ok stm =>
      rw [hstep] at hrun
      have h1 := hf st i stm (hside i (List.mem_cons_self i rest)) hinv hstep
      have h2 := ih stm st2 (fun j hj => hside j (List.mem_cons_of_mem i hj)) h1.1 hrun
      refine ⟨h2.1, ?_⟩
      rcases h1.2 with ⟨t1, ht1⟩
      rcases h2.2 with ⟨t2, ht2⟩
      exact ⟨t1 ++ t2, by rw [ht2, ht1, List.append_assoc]⟩

theorem foldPhaseOps_inv (O : Instr) (r : Nat)
    (f : PPState → Operand → Except String PPState)
    (hf : ∀ st u st2, C8Inv O r st → f st u = .ok st2 →
      C8Inv O r st2 ∧ (∃ tail, st2.ops = st.ops ++ tail)) :
    ∀ (us : List Operand) (st st2 : PPState), C8Inv O r st →
      foldPhaseOps f st us = .ok st2 →
      C8Inv O r st2 ∧ (∃ tail, st2.ops = st.ops ++ tail) := by
  intro us
  induction us with
  | nil =>
    intro st st2 hinv hrun
    simp only [foldPhaseOps] at hrun
    cases hrun
    exact ⟨hinv, [], (List.append_nil _).symm⟩
  | cons u rest ih =>
    intro st st2 hinv hrun
    simp only [foldPhaseOps] at hrun
    cases hstep : f st u with
    | error e =>
      rw [hstep] at hrun
      cases hrun
    | ok stm =>
      rw [hstep] at hrun
      have h1 := hf st u stm hinv hstep
      have h2 := ih stm st2 h1.1 hrun
      refine ⟨h2.1, ?_⟩
      rcases h1.2 with ⟨t1, ht1⟩
      rcases h2.2 with ⟨t2, ht2⟩
      exact ⟨t1 ++ t2, by rw [ht2, ht1, List.append_assoc]⟩

/-! ### Phase step lemmas for the C8 invariant -/

theorem addOpForInsertStep_ok (O : Instr) (r : Nat) (mi : Instr) (st : PPState) (i : Nat)
    (st2 : PPState) (hinv : C8Inv O r st)
    (hstep : addOpForInsertStep mi st i = .ok st2) :
    C8Inv O r st2 ∧ (∃ tail, st2.ops = st.ops ++ tail) := by
  unfold addOpForInsertStep at hstep
  split at hstep
  · cases hstep
    exact ⟨hinv, [], (List.append_nil _).symm⟩
  · split at hstep
    · cases hstep
      exact ⟨hinv, [], (List.append_nil _).symm⟩
    · split at hstep
      · split at hstep
        · cases hstep
          exact ⟨hinv, [], (List.append_nil _).symm⟩
        · split at hstep
          · cases hstep
            exact ⟨hinv, [], (List.append_nil _).symm⟩
          · cases hstep
      · cases hstep
        refine ⟨?_, ?_⟩
        · exact C8Inv_insert_ops O r st mi.id _ hinv rfl rfl
        · exact ⟨_, rfl⟩

theorem addOpForInsert_ok (O : Instr) (r : Nat) (st : PPState) (miId : Nat)
    (st2 : PPState) (hinv : C8Inv O r st)
    (hstep : addOpForInsert st miId = .ok st2) :
    C8Inv O r st2 ∧ (∃ tail, st2.ops = st.ops ++ tail) := by
  unfold addOpForInsert at hstep
  split at hstep
  · cases hstep
    exact ⟨hinv, [], (List.append_nil _).symm⟩
  · rename_i mi _
    split at hstep
    · cases hstep
    · split at hstep
      · cases hstep
      · split at hstep
        · cases hstep
        · split at hstep
          · cases hstep
          · exact foldPhase_inv O r (addOpForInsertStep mi) (fun _ => True)
              (fun st3 i st4 _ hinv3 hs => addOpForInsertStep_ok O r mi st3 i st4 hinv3 hs)
              _ st st2 (fun _ _ => trivial) hinv hstep

theorem addExtractForOpStep_ok (O : Instr) (r : Nat) (mi : Instr) (st : PPState)
    (u : Operand) (st2 : PPState) (hinv : C8Inv O r st)
    (hstep : addExtractForOpStep mi st u = .ok st2) :
    C8Inv O r st2 ∧ (∃ tail, st2.ops = st.ops ++ tail) := by
  unfold addExtractForOpStep at hstep
  dsimp only at hstep
  split at hstep
  · cases hstep
    exact ⟨hinv, [], (List.append_nil _).symm⟩
  · split at hstep
    · -- no generator found: synthesize an EXTRACT
      split at hstep
      · split at hstep
        · cases hstep
        · cases hstep
          exact ⟨C8Inv_insert_exts O r st mi.id _ hinv rfl, [], (List.append_nil _).symm⟩
      · cases hstep
        exact ⟨C8Inv_insert_exts O r st mi.id _ hinv rfl, [], (List.append_nil _).symm⟩
    · -- generator found
      rename_i eid hfind
      have heid : eid ∈ st.exts := List.mem_of_find?_eq_some hfind
      have hne : eid ≠ O.id := hinv.2.2.2.2.2.1 eid heid
      split at hstep
      · cases hstep
        exact ⟨hinv, [], (List.append_nil _).symm⟩
      · split at hstep
        · split at hstep
          · split at hstep
            · cases hstep
            · cases hstep
              exact ⟨C8Inv_setSlot O r st eid _ hinv hne, [], (List.append_nil _).symm⟩
          · cases hstep
            exact ⟨C8Inv_setSlot O r st eid _ hinv hne, [], (List.append_nil _).symm⟩
        · cases hstep
          exact ⟨hinv, [], (List.append_nil _).symm⟩

theorem addExtractForOp_ok (O : Instr) (r : Nat) (st : PPState) (miId : Nat)
    (st2 : PPState) (hinv : C8Inv O r st)
    (hstep : addExtractForOp st miId = .ok st2) :
    C8Inv O r st2 ∧ (∃ tail, st2.ops = st.ops ++ tail) := by
  unfold addExtractForOp at hstep
  split at hstep
  · cases hstep
    exact ⟨hinv, [], (List.append_nil _).symm⟩
  · rename_i mi _
    exact foldPhaseOps_inv O r (addExtractForOpStep mi)
      (fun st3 u st4 hinv3 hs => addExtractForOpStep_ok O r mi st3 u st4 hinv3 hs)
      _ st st2 hinv hstep

theorem phase2Step_ok (O : Instr) (r : Nat) (st : PPState) (oid : Nat)
    (st2 : PPState) (hinv : C8Inv O r st)
    (hstep : phase2Step st oid = .ok st2) :
    C8Inv O r st2 ∧ (∃ tail, st2.ops = st.ops ++ tail) := by
  unfold phase2Step at hstep
  split at hstep
  · cases hstep
    exact ⟨hinv, [], (List.append_nil _).symm⟩
  · split at hstep
    · cases hstep
      exact ⟨hinv, [], (List.append_nil _).symm⟩
    · split at hstep
      · exact addExtractForOp_ok O r st oid st2 hinv hstep
      · cases hstep
        exact ⟨hinv, [], (List.append_nil _).symm⟩

theorem fixDanglingExt_ok (O : Instr) (r : Nat) (st : PPState) (miId : Nat)
    (st2 : PPState) (hinv : C8Inv O r st) (hne : miId ≠ O.id)
    (hstep : fixDanglingExt st miId = .ok st2) :
    C8Inv O r st2 ∧ (∃ tail, st2.ops = st.ops ++ tail) := by
  unfold fixDanglingExt at hstep
  dsimp only at hstep
  split at hstep
  · cases hstep
    exact ⟨hinv, [], (List.append_nil _).symm⟩
  · split at hstep
    · cases hstep
      exact ⟨hinv, [], (List.append_nil _).symm⟩
    · split at hstep
      · cases hstep
      · split at hstep
        · cases hstep
        · split at hstep
          · split at hstep
            · cases hstep
            · cases hstep
              exact ⟨C8Inv_setSlot O r st miId _ hinv hne, [], (List.append_nil _).symm⟩
          · cases hstep
            exact ⟨C8Inv_setSlot O r st miId _ hinv hne, [], (List.append_nil _).symm⟩

theorem phase3Step_ok (O : Instr) (r : Nat) (st : PPState) (eid : Nat)
    (st2 : PPState) (hinv : C8Inv O r st) (hne : eid ≠ O.id)
    (hstep : phase3Step st eid = .ok st2) :
    C8Inv O r st2 ∧ (∃ tail, st2.ops = st.ops ++ tail) := by
  unfold phase3Step at hstep
  split at hstep
  · cases hstep
    exact ⟨hinv, [], (List.append_nil _).symm⟩
  · split at hstep
    · exact fixDanglingExt_ok O r st eid st2 hinv hne hstep
    · cases hstep
      exact ⟨hinv, [], (List.append_nil _).symm⟩

theorem buildCarryBundles_nid_ge (slotBase : Nat) :
    ∀ (l : List Instr) (nid : Nat), nid ≤ (buildCarryBundles slotBase l nid).2 := by
  intro l
  induction l with
  | nil => intro nid; exact Nat.le_refl nid
  | cons a rest ih =>
    intro nid
    simp only [buildCarryBundles]
    have := ih (nid + 2)
    rcases hb : buildCarryBundles slotBase rest (nid + 2) with ⟨bs, nid2⟩
    rw [hb] at this
    omega

theorem fixMaterializedReg_ok (O : Instr) (r : Nat) (st : PPState) (oid : Nat)
    (res : FMRResult) (hinv : C8Inv O r st)
    (hstep : fixMaterializedReg st oid = .ok res) :
    C8Inv O r res.st ∧ (∃ tail, res.st.ops = st.ops ++ tail) ∧
      (hasMaterializer r st → hasMaterializer r res.st) := by
  unfold fixMaterializedReg at hstep
  dsimp only at hstep
  split at hstep
  · cases hstep
    exact ⟨hinv, ⟨[], (List.append_nil _).symm⟩, id⟩
  · split at hstep
    · cases hstep
      exact ⟨hinv, ⟨[], (List.append_nil _).symm⟩, id⟩
    · split at hstep
      · cases hstep
        exact ⟨hinv, ⟨[], (List.append_nil _).symm⟩, id⟩
      · split at hstep
        · -- no consumer: materialize
          cases hstep
          exact ⟨C8Inv_materializeInsert O r st _ _ hinv,
            ⟨[], (List.append_nil _).symm⟩,
            hasMaterializer_materializeInsert r st _ _⟩
        · split at hstep
          · cases hstep
            exact ⟨hinv, ⟨[], (List.append_nil _).symm⟩, id⟩
          · split at hstep
            · cases hstep
            · split at hstep
              · cases hstep
                exact ⟨hinv, ⟨[], (List.append_nil _).symm⟩, id⟩
              · split at hstep
                · split at hstep
                  · cases hstep
                    exact ⟨C8Inv_materializeInsert O r st _ _ hinv,
                      ⟨[], (List.append_nil _).symm⟩,
                      hasMaterializer_materializeInsert r st _ _⟩
                  · split at hstep
                    · split at hstep
                      · cases hstep
                        exact ⟨hinv, ⟨[], (List.append_nil _).symm⟩, id⟩
                      · cases hstep
                        refine ⟨C8Inv_nextId_mono O r st (st.nextId + 1) hinv
                          (Nat.le_succ _), ⟨[], (List.append_nil _).symm⟩, ?_⟩
                        rintro ⟨m, hm, hmo, hmd⟩
                        exact ⟨m, hm, hmo, hmd⟩
                    · cases hstep
                      exact ⟨C8Inv_materializeInsert O r st _ _ hinv,
                        ⟨[], (List.append_nil _).symm⟩,
                        hasMaterializer_materializeInsert r st _ _⟩
                · cases hstep
                  exact ⟨C8Inv_materializeInsert O r st _ _ hinv,
                    ⟨[], (List.append_nil _).symm⟩,
                    hasMaterializer_materializeInsert r st _ _⟩

theorem phase4Step_ok (O : Instr) (r : Nat) (st : PPState) (acc : List (List Instr))
    (oid : Nat) (st2 : PPState) (acc2 : List (List Instr)) (hinv : C8Inv O r st)
    (hstep : phase4Step (st, acc) oid = .ok (st2, acc2)) :
    C8Inv O r st2 ∧ (∃ tail, st2.ops = st.ops ++ tail) ∧
      (hasMaterializer r st → hasMaterializer r st2) := by
  unfold phase4Step at hstep
  split at hstep
  · cases hstep
    exact ⟨hinv, ⟨[], (List.append_nil _).symm⟩, id⟩
  · split at hstep
    · cases hstep
      exact ⟨hinv, ⟨[], (List.append_nil _).symm⟩, id⟩
    · split at hstep
      · cases hstep
      · rename_i res hres
        split at hstep
        · cases hstep
          exact fixMaterializedReg_ok O r st oid res hinv hres
        · split at hstep
          cases hstep
          rename_i bs nid2 hbuild
          have hbase := fixMaterializedReg_ok O r st oid res hinv hres
          have hge : res.st.nextId ≤ nid2 := by
            have := buildCarryBundles_nid_ge res.newSlotIdx res.outInstrs res.st.nextId
            rw [hbuild] at this
            exact this
          refine ⟨C8Inv_nextId_mono O r res.st nid2 hbase.1 hge, ?_, ?_⟩
          · exact hbase.2.1
          · intro h
            rcases hbase.2.2 h with ⟨m, hm, hmo, hmd⟩
            exact ⟨m, hm, hmo, hmd⟩

/-- At O itself, fixMaterializedReg takes the materialize path: O is looked
up unchanged, its first def is a live non-killed register other than X0,
every insert-list consumer of r is (by the invariant) a non-killed INSERT
materializer, and no branch in ops uses r, so in every case an INSERT for r
is synthesized. -/
theorem fixMaterializedReg_at_O (O : Instr) (r : Nat) (st : PPState)
    (hinv : C8Inv O r st)
    (d : Operand) (hd : O.defs.head? = some d)
    (hdr : d.isRegOp = true) (hdk : d.isKillFlag = false) (hdx : d.reg ≠ X0)
    (hob : O.branch = false) (hreq : d.reg = r) :
    fixMaterializedReg st O.id = .ok ⟨materializeInsert st O r, [], 0⟩ := by
  obtain ⟨hP, hSB, hEB, hIB, hOB, hEO, hQ, hR⟩ := hinv
  unfold fixMaterializedReg
  rw [hP]
  dsimp only
  rw [hd]
  dsimp only
  have hcond : (!d.isRegOp || d.isKillFlag || d.reg == X0 || O.branch) = false := by
    rw [hdr, hdk, hob, beq_eq_false_iff_ne.mpr hdx]
    rfl
  simp only [hcond, Bool.false_eq_true, if_false]
  subst hreq
  cases hic : st.ins.find? (fun i => match getInstr st i with
      | some a => usesReg a d.reg
      | none => false) with
  | some cid =>
    have hcid_mem : cid ∈ st.ins := List.mem_of_find?_eq_some hic
    have hcid_pred := List.find?_some hic
    cases hg : getInstr st cid with
    | none =>
      rw [hg] at hcid_pred
      cases hcid_pred
    | some c =>
      rw [hg] at hcid_pred
      have hcuses : usesReg c d.reg = true := hcid_pred
      have hquse := hQ cid hcid_mem c hg hcuses
      have hfind : ∃ b, c.uses.find? (fun a => a.isRegOp && a.reg == d.reg) = some b := by
        have hs : (c.uses.find? (fun a => a.isRegOp && a.reg == d.reg)).isSome = true := by
          rw [List.find?_isSome]
          unfold usesReg at hcuses
          simpa [List.any_eq_true] using hcuses
        exact Option.isSome_iff_exists.mp hs
      rcases hfind with ⟨b, hb⟩
      have hbk : b.isKillFlag = false := hquse.2 b hb
      have hcop : (c.opcode == Opcode.PseudoInsert) = false := by
        rw [hquse.1]
        rfl
      dsimp only
      rw [hg]
      dsimp only
      rw [hb]
      dsimp only
      rw [hbk, hcop]
      rfl
  | none =>
    have hbc : st.ops.find? (fun i => match getInstr st i with
        | some a => a.branch && usesReg a d.reg
        | none => false) = none := by
      rw [List.find?_eq_none]
      intro i hi
      cases hg : getInstr st i with
      | none => simp
      | some a =>
        simp only [hg, Bool.not_eq_true, Bool.and_eq_false_iff]
        cases hab : a.branch with
        | false => exact Or.inl rfl
        | true => exact Or.inr (hR i hi a hg hab)
    dsimp only
    rw [hbc]

theorem phase4Step_establish (O : Instr) (r : Nat) (st : PPState)
    (acc : List (List Instr)) (st2 : PPState) (acc2 : List (List Instr))
    (hinv : C8Inv O r st)
    (d : Operand) (hd : O.defs.head? = some d)
    (hdr : d.isRegOp = true) (hdk : d.isKillFlag = false) (hdx : d.reg ≠ X0)
    (hob : O.branch = false) (hreq : d.reg = r)
    (hspec : isSpecialFour O.opcode = false)
    (hstep : phase4Step (st, acc) O.id = .ok (st2, acc2)) :
    hasMaterializer r st2 := by
  have hfmr := fixMaterializedReg_at_O O r st hinv d hd hdr hdk hdx hob hreq
  unfold phase4Step at hstep
  simp only [hinv.1, hspec, Bool.false_eq_true, if_false, hfmr] at hstep
  simp only [List.isEmpty_nil, if_true] at hstep
  cases hstep
  refine ⟨ppINSERT st.nextId r (u32sub1 O.slotIdx), ?_, rfl, ?_⟩
  · exact self_mem_insertBeforeId st.store O.id _
  · unfold definesReg ppINSERT mkRegOp
    simp

/-- The phase-4 body preserves the existence of a materializer
unconditionally: nothing is ever removed from the store. -/
theorem phase4Step_hasMat (r : Nat) (acc : PPState × List (List Instr)) (oid : Nat)
    (acc2 : PPState × List (List Instr))
    (hstep : phase4Step acc oid = .ok acc2)
    (h : hasMaterializer r acc.1) : hasMaterializer r acc2.1 := by
  unfold phase4Step at hstep
  split at hstep
  · cases hstep
    exact h
  · split at hstep
    · cases hstep
      exact h
    · split at hstep
      · cases hstep
      · rename_i res hres
        have hpres : hasMaterializer r acc.1 → hasMaterializer r res.st := by
          intro h2
          unfold fixMaterializedReg at hres
          dsimp only at hres
          split at hres
          · cases hres; exact h2
          · split at hres
            · cases hres; exact h2
            · split at hres
              · cases hres; exact h2
              · split at hres
                · cases hres
                  exact hasMaterializer_materializeInsert r _ _ _ h2
                · split at hres
                  · cases hres; exact h2
                  · split at hres
                    · cases hres
                    · split at hres
                      · cases hres; exact h2
                      · split at hres
                        · split at hres
                          · cases hres
                            exact hasMaterializer_materializeInsert r _ _ _ h2
                          · split at hres
                            · split at hres
                              · cases hres; exact h2
                              · cases hres
                                rcases h2 with ⟨m, hm, hmo, hmd⟩
                                exact ⟨m, hm, hmo, hmd⟩
                            · cases hres
                              exact hasMaterializer_materializeInsert r _ _ _ h2
                        · cases hres
                          exact hasMaterializer_materializeInsert r _ _ _ h2
        split at hstep
        · cases hstep
          exact hpres h
        · split at hstep
          cases hstep
          rcases hpres h with ⟨m, hm, hmo, hmd⟩
          exact ⟨m, hm, hmo, hmd⟩

theorem phase4_fold_preserves (r : Nat) :
    ∀ (ids : List Nat) (acc : PPState × List (List Instr)) (st4 : PPState)
      (acc4 : List (List Instr)),
      foldPhase phase4Step acc ids = .ok (st4, acc4) →
      hasMaterializer r acc.1 → hasMaterializer r st4 := by
  intro ids
  induction ids with
  | nil =>
    intro acc st4 acc4 hrun hmat
    simp only [foldPhase] at hrun
    cases hrun
    exact hmat
  | cons j rest ih =>
    intro acc st4 acc4 hrun hmat
    simp only [foldPhase] at hrun
    cases hstep : phase4Step acc j with
    | error e =>
      rw [hstep] at hrun
      cases hrun
    | ok accn =>
      rw [hstep] at hrun
      exact ih accn st4 acc4 hrun (phase4Step_hasMat r acc j accn hstep hmat)

theorem phase4_fold (O : Instr) (r : Nat)
    (d : Operand) (hd : O.defs.head? = some d)
    (hdr : d.isRegOp = true) (hdk : d.isKillFlag = false) (hdx : d.reg ≠ X0)
    (hob : O.branch = false) (hreq : d.reg = r)
    (hspec : isSpecialFour O.opcode = false) :
    ∀ (ids : List Nat) (st : PPState) (acc : List (List Instr))
      (st4 : PPState) (acc4 : List (List Instr)),
      C8Inv O r st → O.id ∈ ids →
      foldPhase phase4Step (st, acc) ids = .ok (st4, acc4) →
      hasMaterializer r st4 := by
  intro ids
  induction ids with
  | nil =>
    intro st acc st4 acc4 _ hmem _
    exact absurd hmem (List.not_mem_nil O.id)
  | cons i rest ih =>
    intro st acc st4 acc4 hinv hmem hrun
    simp only [foldPhase] at hrun
    cases hstep : phase4Step (st, acc) i with
    | error e =>
      rw [hstep] at hrun
      cases hrun
    | ok accm =>
      rw [hstep] at hrun
      rcases accm with ⟨stm, accm2⟩
      by_cases hio : i = O.id
      · subst hio
        have hmat := phase4Step_establish O r st acc stm accm2 hinv d hd hdr hdk hdx
          hob hreq hspec hstep
        exact phase4_fold_preserves r rest (stm, accm2) st4 acc4 hrun hmat
      · have hmem2 : O.id ∈ rest := by
          rcases List.mem_cons.mp hmem with h | h
          · exact absurd h.symm hio
          · exact h
        have hinvm := phase4Step_ok O r st acc i stm accm2 hinv hstep
        exact ih stm accm2 st4 acc4 hinvm.1 hmem2 hrun

theorem fixBranchOperandIndexes_hasMat (r : Nat) (st : PPState) (brId : Nat)
    (st2 : PPState) (hstep : fixBranchOperandIndexes st brId = .ok st2)
    (h : hasMaterializer r st) : hasMaterializer r st2 := by
  unfold fixBranchOperandIndexes at hstep
  split at hstep
  · cases hstep
    exact h
  · split at hstep
    · cases hstep
    · cases hstep
      exact hasMaterializer_setUses r st brId _ h

theorem phase5Step_hasMat (r : Nat) (st : PPState) (oid : Nat) (st2 : PPState)
    (hstep : phase5Step st oid = .ok st2) (h : hasMaterializer r st) :
    hasMaterializer r st2 := by
  unfold phase5Step at hstep
  split at hstep
  · cases hstep
    exact h
  · split at hstep
    · exact fixBranchOperandIndexes_hasMat r st oid st2 hstep h
    · cases hstep
      exact h

theorem phase5_fold_hasMat (r : Nat) :
    ∀ (ids : List Nat) (st st5 : PPState),
      foldPhase phase5Step st ids = .ok st5 →
      hasMaterializer r st → hasMaterializer r st5 := by
  intro ids
  induction ids with
  | nil =>
    intro st st5 hrun h
    simp only [foldPhase] at hrun
    cases hrun
    exact h
  | cons i rest ih =>
    intro st st5 hrun h
    simp only [foldPhase] at hrun
    cases hstep : phase5Step st i with
    | error e =>
      rw [hstep] at hrun
      cases hrun
    | ok stm =>
      rw [hstep] at hrun
      exact ih stm st5 hrun (phase5Step_hasMat r st i stm hstep h)

/-- C8, main part: after one run of the packet post-processor, an ordinary
instruction (not a pseudo-op, not a branch, not one of the skipped output
opcodes) whose first def is a register that is not killed, not X0, and not
used by any other instruction of the packet (no consumer), has a
materializing lane-write INSERT for that register in the resulting
packet. -/
theorem c8_materialization (pkt : List Instr) (n : Nat) (O : Instr) (d : Operand)
    (hnodup : (pkt.map Instr.id).Nodup)
    (hbound : ∀ m ∈ pkt, m.id < n)
    (hO : O ∈ pkt)
    (hop1 : O.opcode ≠ Opcode.EXTRACT) (hop2 : O.opcode ≠ Opcode.PseudoInsert)
    (hop3 : O.opcode ≠ Opcode.BUNDLE) (hop4 : O.opcode ≠ Opcode.IMPLICIT_DEF)
    (hop5 : O.opcode ≠ Opcode.PseudoRET)
    (hspec : isSpecialFour O.opcode = false)
    (hob : O.branch = false)
    (hd : O.defs.head? = some d)
    (hdr : d.isRegOp = true) (hdk : d.isKillFlag = false) (hdx : d.reg ≠ X0)
    (hnoc : ∀ m ∈ pkt, m.id ≠ O.id → usesReg m d.reg = false)
    (st5 : PPState) (extras : List (List Instr))
    (hrun : ppRunPacket pkt n = .ok (st5, extras)) :
    hasMaterializer d.reg st5 := by
  unfold ppRunPacket at hrun
  rcases hcl : classifyGo pkt with ⟨es, is2, os⟩
  rw [hcl] at hrun
  dsimp only at hrun
  -- the initial state and its invariant
  have hmemid : ∀ (i : Nat) (a2 : Instr),
      getInstr ⟨pkt, es, is2, os, n⟩ i = some a2 → a2 ∈ pkt ∧ a2.id = i := by
    intro i a2 hg
    unfold getInstr at hg
    have hp := List.find?_some hg
    exact ⟨List.mem_of_find?_eq_some hg, beq_iff_eq.mp hp⟩
  have hinv0 : C8Inv O d.reg ⟨pkt, es, is2, os, n⟩ := by
    refine ⟨?_, ?_, ?_, ?_, ?_, ?_, ?_, ?_⟩
    · unfold getInstr
      exact find?_id_eq_some_of_nodup pkt O hnodup hO
    · exact fun m hm => hbound m hm
    · intro i hi
      rcases classify_exts_spec pkt i (by rw [hcl]; exact hi) with ⟨a, ha, hid, _⟩
      rw [← hid]
      exact hbound a ha
    · intro i hi
      rcases classify_ins_spec pkt i (by rw [hcl]; exact hi) with ⟨a, ha, hid, _⟩
      rw [← hid]
      exact hbound a ha
    · intro i hi
      rcases classify_ops_spec pkt i (by rw [hcl]; exact hi) with ⟨a, ha, hid⟩
      rw [← hid]
      exact hbound a ha
    · intro i hi heq
      rcases classify_exts_spec pkt i (by rw [hcl]; exact hi) with ⟨a, ha, hid, hopa⟩
      have : a = O := eq_of_mem_of_id_eq pkt hnodup a O ha hO (by rw [hid, heq])
      rw [this] at hopa
      exact hop1 hopa
    · intro i hi a2 hg hu
      rcases hmemid i a2 hg with ⟨ha2, hid2⟩
      rcases classify_ins_spec pkt i (by rw [hcl]; exact hi) with ⟨a, ha, hid, hopa⟩
      have haa2 : a = a2 := eq_of_mem_of_id_eq pkt hnodup a a2 ha ha2 (by rw [hid, hid2])
      have hne : a2.id ≠ O.id := by
        intro heq
        have h9 : a2 = O := eq_of_mem_of_id_eq pkt hnodup a2 O ha2 hO heq
        rw [haa2, h9] at hopa
        exact hop2 hopa
      rw [hnoc a2 ha2 hne] at hu
      cases hu
    · intro i hi a2 hg hb
      rcases hmemid i a2 hg with ⟨ha2, hid2⟩
      have hne : a2.id ≠ O.id := by
        intro heq
        have : a2 = O := eq_of_mem_of_id_eq pkt hnodup a2 O ha2 hO heq
        rw [this] at hb
        rw [hob] at hb
        cases hb
      exact hnoc a2 ha2 hne
  -- phase 1
  cases h1 : foldPhase addOpForInsert ⟨pkt, es, is2, os, n⟩ is2 with
  | error e =>
    rw [h1] at hrun
    dsimp only at hrun
    cases hrun
  | ok st1 =>
    rw [h1] at hrun
    dsimp only at hrun
    have hinv1 := foldPhase_inv O d.reg addOpForInsert (fun _ => True)
      (fun st3 i st4 _ hinv3 hs => addOpForInsert_ok O d.reg st3 i st4 hinv3 hs)
      is2 _ st1 (fun _ _ => trivial) hinv0 h1
    -- phase 2
    cases h2 : foldPhase phase2Step st1 st1.ops with
    | error e =>
      rw [h2] at hrun
      dsimp only at hrun
      cases hrun
    | ok st2 =>
      rw [h2] at hrun
      dsimp only at hrun
      have hinv2 := foldPhase_inv O d.reg phase2Step (fun _ => True)
        (fun st3 i st4 _ hinv3 hs => phase2Step_ok O d.reg st3 i st4 hinv3 hs)
        st1.ops st1 st2 (fun _ _ => trivial) hinv1.1 h2
      -- phase 3
      cases h3 : foldPhase phase3Step st2 st2.exts with
      | error e =>
        rw [h3] at hrun
        dsimp only at hrun
        cases hrun
      | ok st3 =>
        rw [h3] at hrun
        dsimp only at hrun
        have hside3 : ∀ i ∈ st2.exts, i ≠ O.id := hinv2.1.2.2.2.2.2.1
        have hinv3 := foldPhase_inv O d.reg phase3Step (fun i => i ≠ O.id)
          (fun st6 i st7 hs6 hinv6 hs => phase3Step_ok O d.reg st6 i st7 hinv6 hs6 hs)
          st2.exts st2 st3 hside3 hinv2.1 h3
        -- phase 4
        cases h4 : foldPhase phase4Step (st3, ([] : List (List Instr))) st3.ops with
        | error e =>
          rw [h4] at hrun
          dsimp only at hrun
          cases hrun
        | ok p4 =>
          rw [h4] at hrun
          rcases p4 with ⟨st4, extras4⟩
          dsimp only at hrun
          have hOos : O.id ∈ os := by
            have := classify_ops_mem pkt O hO hop1 hop2 hop3 hop4 hop5
            rw [hcl] at this
            exact this
          have hOmem : O.id ∈ st3.ops := by
            rcases hinv1.2 with ⟨t1, ht1⟩
            rcases hinv2.2 with ⟨t2, ht2⟩
            rcases hinv3.2 with ⟨t3, ht3⟩
            rw [ht3, ht2, ht1]
            simp only at hOos ⊢
            exact List.mem_append_left _ (List.mem_append_left _
              (List.mem_append_left _ hOos))
          have hmat4 : hasMaterializer d.reg st4 :=
            phase4_fold O d.reg d hd hdr hdk hdx hob rfl hspec st3.ops st3 [] st4
              extras4 hinv3.1 hOmem h4
          -- phase 5
          cases h5 : foldPhase phase5Step st4 st4.ops with
          | error e =>
            rw [h5] at hrun
            dsimp only at hrun
            cases hrun
          | ok st5b =>
            rw [h5] at hrun
            dsimp only at hrun
            cases hrun
            exact phase5_fold_hasMat d.reg st4.ops st4 _ h5 hmat4

/-- An ordinary instruction (ADDI producing register 5 from an immediate)
with a live, unconsumed result, at slot 3. -/
def opO : Instr := ⟨0, .ADDI, false, [mkRegOp 5 false], [mkImmOp 7], 3⟩

theorem c8_materialization_witness :
    hasMaterializer 5 ⟨[ppINSERT 100 5 2, opO], [], [100], [0], 101⟩ :=
  c8_materialization [opO] 100 opO (mkRegOp 5 false) (by decide) (by decide)
    (by decide) (by decide) (by decide) (by decide) (by decide) (by decide)
    rfl rfl rfl rfl rfl (by decide) (by decide)
    ⟨[ppINSERT 100 5 2, opO], [], [100], [0], 101⟩ [] rfl

/-- Running the per-packet post-processing a second time on its own
output. -/
def ppTwice (pkt : List Instr) (n : Nat) :
    Except String (PPState × List (List Instr)) :=
  (ppRunPacket pkt n).bind (fun res => ppRunPacket res.1.store res.1.nextId)

/-- Bundle size of a post-processing outcome. -/
def storeLenOf (e : Except String (PPState × List (List Instr))) : Option Nat :=
  match e with
  | .ok res => some res.1.store.length
  | .error _ => none

/-- Number of materializing INSERT instructions in the outcome. -/
def insertCountOf (e : Except String (PPState × List (List Instr))) : Option Nat :=
  match e with
  | .ok res => some ((res.1.store.filter (fun a => a.opcode == Opcode.INSERT)).length)
  | .error _ => none

/-- C8 counterexample (idempotence): one run of the post-processor on the
single-instruction packet adds one materializing INSERT (2 instructions, 1
INSERT); a second run on the result classifies that INSERT as an ordinary
op and creates three further instructions, among them two more INSERTs, so
the post-processor is not idempotent. -/
theorem c8_counterexample :
    storeLenOf (ppRunPacket [opO] 100) = some 2 ∧
    storeLenOf (ppTwice [opO] 100) = some 5 ∧
    insertCountOf (ppRunPacket [opO] 100) = some 1 ∧
    insertCountOf (ppTwice [opO] 100) = some 3 := by decide

/-- C9: a lane-read pseudo-op still lacking a slot is assigned its
in-packet consumer slot + 1; slot + 2 instead when + 1 is already occupied
by another lane-read pseudo-op; and processing aborts fatally when both
are occupied. -/
theorem c9_dangling_extract_slotting (st : PPState) (miId : Nat) (mi : Instr)
    (d : Operand) (oid : Nat) (c : Instr)
    (hmi : getInstr st miId = some mi)
    (hd : mi.defs.head? = some d)
    (hcons : st.ops.find? (fun oid2 => match getInstr st oid2 with
      | some a => usesReg a d.reg
      | none => false) = some oid)
    (hc : getInstr st oid = some c)
    (hsmall : c.slotIdx + 2 < u32Mod) :
    (extSlotTaken st (c.slotIdx + 1) = false →
      fixDanglingExt st miId = .ok (setSlotOf st miId (c.slotIdx + 1))) ∧
    (extSlotTaken st (c.slotIdx + 1) = true → extSlotTaken st (c.slotIdx + 2) = false →
      fixDanglingExt st miId = .ok (setSlotOf st miId (c.slotIdx + 2))) ∧
    (extSlotTaken st (c.slotIdx + 1) = true → extSlotTaken st (c.slotIdx + 2) = true →
      fixDanglingExt st miId = .error "no slot for required extract...") := by
  have h1 : u32add c.slotIdx 1 = c.slotIdx + 1 := by
    unfold u32add
    exact Nat.mod_eq_of_lt (by omega)
  have h2 : u32add (c.slotIdx + 1) 1 = c.slotIdx + 2 := by
    unfold u32add
    exact Nat.mod_eq_of_lt (by omega)
  have hbody : fixDanglingExt st miId =
      (let attempted1 := u32add c.slotIdx 1
       let attempted2 := if extSlotTaken st attempted1 then u32add attempted1 1
         else attempted1
       if extSlotTaken st attempted2 then
         Except.error "no slot for required extract..."
       else Except.ok (setSlotOf st miId attempted2)) := by
    unfold fixDanglingExt
    rw [hmi]
    dsimp only
    rw [hd]
    dsimp only
    rw [hcons]
    dsimp only
    rw [hc]
  refine ⟨?_, ?_, ?_⟩
  · intro hfree
    rw [hbody]
    dsimp only
    rw [h1, hfree]
    simp only [Bool.false_eq_true, if_false, hfree]
  · intro htaken hfree
    rw [hbody]
    dsimp only
    rw [h1, htaken]
    simp only [if_true, h2, hfree, Bool.false_eq_true, if_false]
  · intro htaken1 htaken2
    rw [hbody]
    dsimp only
    rw [h1, htaken1]
    simp only [if_true, h2, htaken2]

/-- The dangling extract of the C9 witness (no slot yet, defines register
8). -/
def extW9 : Instr := ⟨3, .EXTRACT, false, [mkRegOp 8 false],
  [mkRegOp 8 false, mkImmOp 0], noSlot⟩

/-- Consumer of register 8 at slot 2 for the C9 witness. -/
def opW9 : Instr := ⟨4, .GENERIC, false, [mkRegOp 9 false], [mkRegOp 8 false], 2⟩

def stC9 : PPState := ⟨[opW9, extW9], [3], [], [4], 20⟩

theorem c9_dangling_extract_slotting_witness :
    (extSlotTaken stC9 (opW9.slotIdx + 1) = false →
      fixDanglingExt stC9 3 = .ok (setSlotOf stC9 3 (opW9.slotIdx + 1))) ∧
    (extSlotTaken stC9 (opW9.slotIdx + 1) = true →
      extSlotTaken stC9 (opW9.slotIdx + 2) = false →
      fixDanglingExt stC9 3 = .ok (setSlotOf stC9 3 (opW9.slotIdx + 2))) ∧
    (extSlotTaken stC9 (opW9.slotIdx + 1) = true →
      extSlotTaken stC9 (opW9.slotIdx + 2) = true →
      fixDanglingExt stC9 3 = .error "no slot for required extract...") :=
  c9_dangling_extract_slotting stC9 3 extW9 (mkRegOp 8 false) 4 opW9 rfl rfl rfl rfl
    (by decide)

theorem fixBranchUsesGo_fatal (st : PPState) :
    ∀ (us done : List Operand),
      (∃ u ∈ us, u.isRegOp = true ∧
        st.ops.find? (fun oid => match getInstr st oid with
          | some a => definesRegRaw a u.reg
          | none => false) = none) →
      ∃ e, fixBranchUsesGo st done us = .error e := by
  intro us
  induction us with
  | nil =>
    intro done h
    rcases h with ⟨u, hu, _⟩
    exact absurd hu (List.not_mem_nil u)
  | cons u0 rest ih =>
    intro done h
    rcases h with ⟨u, hu, hreg, hnone⟩
    rcases List.mem_cons.mp hu with rfl | hmem
    · unfold fixBranchUsesGo
      rw [hreg]
      rw [hnone]
      exact ⟨_, rfl⟩
    · unfold fixBranchUsesGo
      cases hr0 : u0.isRegOp with
      | false =>
        simp only [hr0, Bool.not_false, if_true]
        exact ih (done ++ [u0]) ⟨u, hmem, hreg, hnone⟩
      | true =>
        simp only [hr0, Bool.not_true, Bool.false_eq_true, if_false]
        cases hf : st.ops.find? (fun oid => match getInstr st oid with
            | some a => definesRegRaw a u0.reg
            | none => false) with
        | none =>
          dsimp only
          exact ⟨_, rfl⟩
        | some oid =>
          dsimp only
          cases hg : getInstr st oid with
          | none =>
            dsimp only
            exact ⟨_, rfl⟩
          | some p =>
            dsimp only
            exact ih _ ⟨u, hmem, hreg, hnone⟩

/-- C10: the post-processor branch operand rewrite does not exempt the zero
register: a branch use of X0 with no producer in the ops list aborts
fatally; while the packetizer endPacket branch fixup skips X0 operands
entirely (no fatal error even without any producer). -/
theorem c10_x0_not_exempt :
    (∀ (st : PPState) (brId : Nat) (br : Instr) (u : Operand),
      getInstr st brId = some br → u ∈ br.uses → u.isRegOp = true → u.reg = X0 →
      (∀ oid ∈ st.ops, ∀ a, getInstr st oid = some a → definesRegRaw a X0 = false) →
      ∃ e, fixBranchOperandIndexes st brId = .error e) ∧
    (∀ (pkt : List Instr) (br : Instr),
      (∀ u ∈ br.uses, u.isRegOp = true → u.reg = X0) →
      branchFixupOne pkt br = true) := by
  constructor
  · intro st brId br u hbr hu hreg hx0 hnoprod
    have hfind : st.ops.find? (fun oid => match getInstr st oid with
        | some a => definesRegRaw a u.reg
        | none => false) = none := by
      rw [List.find?_eq_none]
      intro oid hoid
      cases hg : getInstr st oid with
      | none => simp
      | some a =>
        simp only [hg, Bool.not_eq_true]
        rw [hx0]
        exact hnoprod oid hoid a hg
    rcases fixBranchUsesGo_fatal st br.uses [] ⟨u, hu, hreg, hfind⟩ with ⟨e, herr⟩
    refine ⟨e, ?_⟩
    unfold fixBranchOperandIndexes
    rw [hbr]
    dsimp only
    rw [herr]
  · intro pkt br hall
    rw [branchFixupOne, List.all_eq_true]
    intro u hu
    cases hreg : u.isRegOp with
    | false => simp [hreg]
    | true =>
      have hx0 := hall u hu hreg
      simp [hx0]

/-- A branch whose sole register operand is X0, with no producer of X0 in
the packet. -/
def brX0 : Instr := ⟨7, .GENERIC, true, [], [mkRegOp X0 false], 1⟩

def stC10 : PPState := ⟨[brX0, opW9], [], [], [4, 7], 30⟩

theorem c10_x0_not_exempt_witness :
    (∃ e, fixBranchOperandIndexes stC10 7 = .error e) ∧
    branchFixupOne [opW9] brX0 = true :=
  ⟨c10_x0_not_exempt.1 stC10 7 brX0 (mkRegOp X0 false) rfl (by decide) rfl rfl
      (by decide),
   c10_x0_not_exempt.2 [opW9] brX0 (by decide)⟩

end Primate
